import Mathlib

/-!
Verification development for the `zest` note-indexing tool.

The Rust sources are shallowly embedded:
* `src/zest.rs` — the note parser (`Zest::from_file` and its helpers);
* `src/db.rs`  — the index store / synchronization engine (`Database`).

External collaborators (the `pulldown_cmark` markdown tokenizer, `serde_yaml`,
the `walkdir` traversal, and tantivy's add/delete/query/commit primitives) are
modelled as explicit parameters or small state-transition functions, following
the spec's description of their interfaces.  Machine-level details (file
descriptors, mmap) are outside the model.
-/

namespace ZestModel

/-- One event of the markdown event stream produced by the external
`pulldown_cmark` tokenizer (`Parser::new` in `zest.rs`).  Only the shapes that
`Zest::from_file` inspects are distinguished; everything else the source lets
fall through to its catch-all arm, mirrored here by the constructors that the
embedded loop ignores.  `startLink dest ltitle` carries the link destination
and the third component of `Tag::Link` (the string the source binds as
`text`). -/
inductive MdEvent where
  | startH (lvl : Nat)
  | endH (lvl : Nat)
  | text (s : String)
  | startLink (dest : String) (ltitle : String)
  | endLink
  | softBreak
  | hardBreak
  | startCodeBlock (lang : String)
  | endCodeBlock
  | startPara
  | endPara
  deriving DecidableEq, Repr

/-- Front-matter metadata (`ZestMeta` in `zest.rs`): a tag list defaulting to
empty. -/
structure ZestMeta where
  tags : List String := []
  deriving DecidableEq, Repr

/-- A fenced code block as consumed by `Database::put_doc` in `db.rs`
(`codeblock.language` and `codeblock.code`, both optional). -/
structure CodeBlock where
  language : Option String
  code : Option String
  deriving DecidableEq, Repr

/-- The parsed note document (`Zest` in `zest.rs`).  The struct in `zest.rs`
declares `title`, `content`, `file`, `refs`, `metadata`.  `db.rs`
(`put_doc`, lines 204-212) additionally reads `z.codeblocks`; that field is
declared nowhere in `src/zest.rs` and `from_file` never populates any
code-block list, so the embedding carries the field the caller requires and
`from_file` always leaves it empty. -/
structure Zest where
  title : String
  content : String
  file : String
  refs : List String
  metadata : ZestMeta
  codeblocks : List CodeBlock
  deriving DecidableEq, Repr

/-- Parser failure (`ZestParsingError` in `zest.rs`): unreadable source or
malformed front matter. -/
inductive ZestParsingError where
  | SourceError
  | MetadataError (msg : String)
  deriving DecidableEq, Repr

/-- Accumulator of the header-splitting loop in `Zest::from_file`
(`zest.rs` lines 76-98). -/
structure SplitAcc where
  inHeader : Bool
  metadata : String
  md : String
  deriving DecidableEq, Repr

/-- One step of the header-splitting loop (`zest.rs` lines 78-97): the match
on `(i, line, in_header)`. -/
def splitStep (acc : SplitAcc) (i : Nat) (line : String) : SplitAcc :=
  if i = 0 ∧ line = "---" ∧ acc.inHeader = false then
    { acc with inHeader := true }
  else if line = "---" ∧ acc.inHeader = true then
    { acc with inHeader := false }
  else if acc.inHeader then
    { acc with metadata :=
        if acc.metadata.isEmpty then line else acc.metadata ++ "\n" ++ line }
  else
    { acc with md :=
        if acc.md.isEmpty then line else acc.md ++ "\n" ++ line }

/-- Split the file's lines into the front-matter text and the markdown text
(`zest.rs` lines 73-98). -/
def splitHeader (lines : List String) : String × String :=
  let acc := lines.enum.foldl (fun a p => splitStep a p.1 p.2)
    ⟨false, "", ""⟩
  (acc.metadata, acc.md)

/-- Accumulator of the markdown event loop in `Zest::from_file`
(`zest.rs` lines 100-106): the `in_title` flag and the `title`, `content`,
`refs` buffers. -/
structure ParseAcc where
  inTitle : Bool
  title : String
  content : String
  refs : List String
  deriving DecidableEq, Repr

/-- One step of the markdown event loop (`zest.rs` lines 107-138), arm for
arm in source order.  The first source arm carries the guard
`if title.is_empty()`; when the guard fails the Rust match falls through to
the catch-all, mirrored by the `else` branch. -/
def step (acc : ParseAcc) (e : MdEvent) : ParseAcc :=
  match acc.inTitle, e with
  | false, .startH 1 =>
      if acc.title.isEmpty then { acc with inTitle := true } else acc
  | true, .text t => { acc with title := acc.title ++ t }
  | true, .endH 1 => { acc with inTitle := false }
  | false, .text t => { acc with content := acc.content ++ t }
  | false, .startLink d lt =>
      { acc with content := acc.content ++ lt, refs := acc.refs ++ [d] }
  | true, .startLink d lt =>
      { acc with title := acc.title ++ lt, refs := acc.refs ++ [d] }
  | false, .softBreak => { acc with content := acc.content ++ "\n" }
  | false, .hardBreak => { acc with content := acc.content ++ "\n" }
  | false, .endH _ => { acc with content := acc.content ++ "\n" }
  | _, _ => acc

/-- The whole markdown event loop of `Zest::from_file`. -/
def processEvents (evts : List MdEvent) : ParseAcc :=
  evts.foldl step ⟨false, "", "", []⟩

/-- `Zest::from_file` (`zest.rs` lines 64-148).  `tokenize` stands for the
external `pulldown_cmark` parser, `yaml` for the external `serde_yaml`
deserializer (`none` = deserialization error), and `contents` for the result
of opening the file (`none` = `SourceError`, `some lines` = the file's
lines). -/
def Zest.from_file (tokenize : String → List MdEvent)
    (yaml : String → Option ZestMeta) (source : String)
    (contents : Option (List String)) : Except ZestParsingError Zest :=
  match contents with
  | none => .error .SourceError
  | some lines =>
    let split := splitHeader lines
    let acc := processEvents (tokenize split.2)
    let metaRes : Except ZestParsingError ZestMeta :=
      if split.1.isEmpty then .ok {}
      else
        match yaml split.1 with
        | some m => .ok m
        | none => .error (.MetadataError "could not deserialize front matter")
    match metaRes with
    | .error e => .error e
    | .ok m => .ok ⟨acc.title, acc.content, source, acc.refs, m, []⟩

/-- Models the event stream `pulldown_cmark`'s `Parser::new` emits for the
concrete markdown bodies exercised in this development (anything else maps to
the empty stream; in particular the empty body maps to no events, as
`pulldown_cmark` emits none for empty input). -/
def pulldownModel (md : String) : List MdEvent :=
  if md = "# Foo\nBar [Baz](other.md)" then
    [.startH 1, .text "Foo", .endH 1, .startPara, .text "Bar ",
     .startLink "other.md" "", .text "Baz", .endLink, .endPara]
  else if md = "```rust\nlet x = 1;\n```" then
    [.startCodeBlock "rust", .text "let x = 1;\n", .endCodeBlock]
  else if md = "# T" then
    [.startH 1, .text "T", .endH 1]
  else
    []

/-- Models `serde_yaml::from_str` as used by `from_file`: every front-matter
text exercised in this development is malformed, so deserialization fails.
(Claims whose inputs carry no front matter never reach this function.) -/
def yamlModel : String → Option ZestMeta := fun _ => none

end ZestModel

namespace ZestModel

/-- A value stored in a tantivy document field: the two value kinds the
schema of `db.rs` uses for the fields the code reads back (`path` is text,
`lastmod` is a date).  Timestamps are the integral seconds that
`DateTime::timestamp()` compares. -/
inductive FieldVal where
  | str (s : String)
  | date (t : Int)
  deriving DecidableEq, Repr

/-- An index record: the on-disk projection `Database::put_doc` builds
(`db.rs` lines 186-222).  `path` and `lastmod` are optional and typed, so a
committed record can be missing a field or hold a wrong-typed value there,
exactly what `get_first(..)`/`.text()`/`.date_value()` distinguish. -/
structure Record where
  path : Option FieldVal
  lastmod : Option FieldVal
  title : String
  file : String
  content : String
  tags : List String
  reff : List String
  lang : List String
  code : List String
  deriving DecidableEq, Repr

/-- A staged writer operation: `delete_term` on the `path` field, an added
document, or `delete_all_documents` (used by `reindex`). -/
inductive Op where
  | del (p : String)
  | add (r : Record)
  | delAll
  deriving DecidableEq, Repr

/-- Level of a log message emitted on the write path. -/
inductive LogLevel where
  | trace
  | debug
  | info
  | warn
  deriving DecidableEq, Repr

/-- A log message. -/
structure LogMsg where
  level : LogLevel
  msg : String
  deriving DecidableEq, Repr

/-- Errors of the database layer (`DatabaseError` in `db.rs`) together with
the two panic shapes the source can hit on the write path:
`PanicError` models the `.unwrap()` calls (canonicalize/metadata/list), and
`UnreachablePanic` models the `unreachable!` branch in `Database::create`. -/
inductive DatabaseError where
  | ConfigError (msg : String)
  | CorruptionError (msg : String)
  | PanicError
  | UnreachablePanic
  deriving DecidableEq, Repr

/-- What the filesystem holds at a canonical path: the mtime the `modified()`
call would report (`none` when it errs) and the file's lines. -/
structure FileData where
  mtime : Option Int
  lines : List String
  deriving DecidableEq, Repr

/-- The environment of one `Database` invocation: configuration, a snapshot
of the filesystem, and the external collaborators.
* `paths`      — `config.paths`;
* `walkFiles`  — the canonicalized file paths the external `walkdir`
  traversal enumerates under the configured roots (after the hidden-file
  filter), in traversal order;
* `fs`         — the filesystem, keyed by canonical path;
* `canon`      — `std::fs::canonicalize` (total here; the source's panic on
  a nonexistent path is modelled by the `fs` lookup that follows it);
* `fileQuery`  — tantivy's match of the query `file:<q>` against a record's
  `file` field;
* `tokenize` / `yaml` — the external parsers used by `Zest::from_file`;
* `now`, `createName` — the timestamp and the generated file name
  `Database::create` uses. -/
structure Env where
  paths : List String
  walkFiles : List String
  fs : String → Option FileData
  canon : String → String
  fileQuery : String → String → Bool
  tokenize : String → List MdEvent
  yaml : String → Option ZestMeta
  now : Int
  createName : String

/-- The externally observable database state: the committed (reader-visible)
records, the writer's staged operations, the sequence-number counter, and the
log emitted so far. -/
structure DB where
  committed : List Record
  staged : List Op
  stamp : Nat
  logs : List LogMsg
  deriving Repr

/-- Does this record hold canonical path `p` in its `path` field?  (The term
`delete_term(path, p)` and the `TermQuery` of `check_new` both match on.) -/
def pathIs (p : String) (r : Record) : Bool :=
  decide (r.path = some (.str p))

/-- Apply one staged operation to the visible record list (what tantivy's
commit does with the pending queue, in order). -/
def applyOp (c : List Record) : Op → List Record
  | .del p => c.filter (fun r => ! pathIs p r)
  | .add r => c ++ [r]
  | .delAll => []

/-- Apply a staged operation list in order. -/
def applyOps (c : List Record) (ops : List Op) : List Record :=
  ops.foldl applyOp c

/-- `Database::commit` (`db.rs` lines 225-234): the writer commit makes all
staged operations visible at once and `reader.reload()` refreshes the read
view.  Modelled from the spec: tantivy's opstamp counter is not part of
`src/`; per spec section 4.2 a commit "returns a monotonically increasing
sequence number", so each commit advances the counter and returns its new
value. -/
def commit (db : DB) : DB × Nat :=
  ({ committed := applyOps db.committed db.staged
     staged := []
     stamp := db.stamp + 1
     logs := db.logs }, db.stamp + 1)

/-- Append staged operations and log messages to the writer. -/
def stage (db : DB) (ops : List Op) (logs : List LogMsg) : DB :=
  { db with staged := db.staged ++ ops, logs := db.logs ++ logs }

/-- `Database::list` restricted to the `file:<q>` queries `put_doc` issues
(`db.rs` lines 448-472, called at line 215): collect the `path` field of
every committed record whose `file` field matches; a matching record with a
missing or wrong-typed `path` makes `list` return `CorruptionError`, which
`put_doc` then `.unwrap()`s. -/
def listPaths (env : Env) (c : List Record) (q : String) :
    Except DatabaseError (List String) :=
  go (c.filter (fun r => env.fileQuery q r.file))
where
  go : List Record → Except DatabaseError (List String)
    | [] => .ok []
    | r :: rs =>
      match r.path with
      | some (.str s) => do
        let tl ← go rs
        .ok (s :: tl)
      | none => .error (.CorruptionError "missing path field")
      | some _ => .error (.CorruptionError "wrong type for path field")

/-- The reference-resolution loop of `put_doc` (`db.rs` lines 214-219): for
each raw reference, every path matched by the file-scoped query is recorded,
with one info-level log line per match.  Failures of the inner `list` call
are the caller's panic. -/
def resolveRefs (env : Env) (c : List Record) (fname : String) :
    List String → Except DatabaseError (List String × List LogMsg)
  | [] => .ok ([], [])
  | reff :: rest => do
    let ms ← listPaths env c reff
    let tl ← resolveRefs env c fname rest
    .ok (ms ++ tl.1,
         ms.map (fun m => ⟨.info, fname ++ " references " ++ m⟩) ++ tl.2)

/-- `Database::put_doc` (`db.rs` lines 176-223) as the operations it stages
and the log it emits, given the reader-visible records `c` the resolution
queries run against.  Control flow follows the source: canonicalize the
document's path (`unwrap` panics unless the file exists), stage the
`delete_term` on that path, read the mtime (a failing `modified()` only logs
a warning and omits the `lastmod` field), build the full document — title,
file, path, content, tags, code blocks, resolved references — and stage its
addition. -/
def putDocOps (env : Env) (c : List Record) (z : Zest) :
    Except DatabaseError (List Op × List LogMsg) :=
  let fname := env.canon z.file
  match env.fs fname with
  | none => .error .PanicError
  | some fd => do
    let mtimeLog : List LogMsg :=
      match fd.mtime with
      | some _ => [⟨.trace, "Creating " ++ fname ++ " with modified time"⟩]
      | none =>
        [⟨.warn, "Could not retrieve " ++ fname ++ " last modified date."⟩]
    let res ← resolveRefs env c fname z.refs
    let newDoc : Record :=
      { path := some (.str fname)
        lastmod := fd.mtime.map .date
        title := z.title
        file := fname
        content := z.content
        tags := z.metadata.tags
        reff := res.1
        lang := z.codeblocks.filterMap (fun cb => cb.language)
        code := z.codeblocks.filterMap (fun cb => cb.code) }
    .ok ([.del fname, .add newDoc],
         ⟨.debug, "Inserting"⟩ ::
           ⟨.trace, "Remove previously existing entries"⟩ ::
           mtimeLog ++ res.2 ++ [⟨.debug, "Adding"⟩])

/-- Stage a batch of documents in order (the loops of `put_multiple` and the
second half of `check_new`); the resolution view `c` is the reader view,
fixed for the whole batch because nothing commits in between. -/
def docsOps (env : Env) (c : List Record) :
    List Zest → Except DatabaseError (List Op × List LogMsg)
  | [] => .ok ([], [])
  | z :: zs => do
    let hd ← putDocOps env c z
    let tl ← docsOps env c zs
    .ok (hd.1 ++ tl.1, hd.2 ++ tl.2)

/-- Is the canonical path already indexed?  (`check_new`'s `TermQuery` on the
`path` field with the `Count` collector, `db.rs` lines 345-350.) -/
def tracked (c : List Record) (p : String) : Bool :=
  c.any (pathIs p)

/-- `Zest::from_file` as invoked by the database on path `p`: the file's
lines come from the filesystem snapshot. -/
def parseFile (env : Env) (p : String) : Except ZestParsingError Zest :=
  Zest.from_file env.tokenize env.yaml p ((env.fs p).map FileData.lines)

/-- The discovery loop of `Database::check_new` (`db.rs` lines 319-361):
walk the configured roots, and for every enumerated file that the exact path
lookup does not find, parse it (collecting it for upsert) or log a warning
and skip it. -/
def cnDocs (env : Env) (c : List Record) :
    List String → List Zest × List LogMsg
  | [] => ([], [])
  | entry :: rest =>
    let tl := cnDocs env c rest
    if tracked c entry then tl
    else
      match parseFile env entry with
      | .ok z =>
        (z :: tl.1, ⟨.info, entry ++ " is not tracked yet, adding it"⟩ :: tl.2)
      | .error _ =>
        (tl.1, ⟨.info, entry ++ " is not tracked yet, adding it"⟩ ::
               ⟨.warn, "Could not parse " ++ entry⟩ :: tl.2)

/-- `Database::check_new` (`db.rs` lines 319-365): collect the untracked
parseable files, then stage an upsert for each. -/
def checkNewOps (env : Env) (c : List Record) :
    Except DatabaseError (List Op × List LogMsg) := do
  let found := cnDocs env c env.walkFiles
  let staged ← docsOps env c found.1
  .ok (staged.1, found.2 ++ staged.2)

/-- `Database::new` (`db.rs` lines 367-373): discovery followed by a single
commit. -/
def Database.new (env : Env) (db : DB) : Except DatabaseError (DB × Nat) := do
  let cn ← checkNewOps env db.committed
  .ok (commit (stage db cn.1 cn.2))

/-- The body of `Database::update`'s per-record loop (`db.rs` lines
380-418) for one visited record: extract `path` and `lastmod` (missing or
wrong-typed fields are corruption and abort), then stage a delete if the
source file is gone, re-parse and stage an upsert if strictly newer (a parse
failure only logs a warning), and otherwise do nothing.  The `.unwrap()` on
the fresh `modified()` value is a panic. -/
def visitOps (env : Env) (c : List Record) (r : Record) :
    Except DatabaseError (List Op × List LogMsg) := do
  let p ←
    match r.path with
    | some (.str s) => Except.ok s
    | none => .error (.CorruptionError "missing path field")
    | some _ => .error (.CorruptionError "wrong type for path field")
  let m ←
    match r.lastmod with
    | some (.date t) => Except.ok t
    | none => .error (.CorruptionError "missing file last_modified")
    | some _ => .error (.CorruptionError "wrong type for last_modif field")
  match env.fs p with
  | some fd =>
    match fd.mtime with
    | none => .error .PanicError
    | some t =>
      if m < t then
        match parseFile env p with
        | .ok z => do
          let ops ← putDocOps env c z
          .ok (ops.1, ⟨.debug, p ++ " has changed"⟩ :: ops.2)
        | .error _ => .ok ([], [⟨.warn, "Could not update " ++ p⟩])
      else .ok ([], [⟨.trace, "No change detected for " ++ p⟩])
  | none => .ok ([.del p], [])

/-- The whole per-record loop of `Database::update` over the records the
searcher returns. -/
def visitAll (env : Env) (c : List Record) :
    List Record → Except DatabaseError (List Op × List LogMsg)
  | [] => .ok ([], [])
  | r :: rs => do
    let hd ← visitOps env c r
    let tl ← visitAll env c rs
    .ok (hd.1 ++ tl.1, hd.2 ++ tl.2)

/-- `Database::update` (`db.rs` lines 375-422): discovery, then the
staleness/deletion loop over every committed record (the searcher was
acquired before any staging, so it sees exactly `db.committed`), and one
commit at the very end. -/
def Database.update (env : Env) (db : DB) :
    Except DatabaseError (DB × Nat) := do
  let cn ← checkNewOps env db.committed
  let vs ← visitAll env db.committed db.committed
  .ok (commit (stage db (cn.1 ++ vs.1) (cn.2 ++ vs.2)))

/-- `Database::put` (`db.rs` lines 236-240): one upsert, one commit. -/
def Database.put (env : Env) (db : DB) (z : Zest) :
    Except DatabaseError (DB × Nat) := do
  let ops ← putDocOps env db.committed z
  .ok (commit (stage db ops.1 ops.2))

/-- `Database::put_multiple` (`db.rs` lines 242-248): a batch of upserts,
one commit. -/
def Database.put_multiple (env : Env) (db : DB) (zs : List Zest) :
    Except DatabaseError (DB × Nat) := do
  let ops ← docsOps env db.committed zs
  .ok (commit (stage db ops.1 ops.2))

/-- `Database::remove` (`db.rs` lines 278-317): the records matched by the
(already parsed) query are deleted by exact path key; a matched record with
a missing or wrong-typed `path` field is skipped with a debug log. -/
def removeOps (q : Record → Bool) : List Record → List Op × List LogMsg
  | [] => ([], [])
  | r :: rs =>
    let tl := removeOps q rs
    if q r then
      match r.path with
      | some (.str s) => (.del s :: tl.1, tl.2)
      | _ => (tl.1, ⟨.debug, "record has no usable path field"⟩ :: tl.2)
    else tl

/-- `Database::remove`: stage the deletions and commit. -/
def Database.remove (env : Env) (db : DB) (q : Record → Bool) :
    Except DatabaseError (DB × Nat) :=
  let ops := removeOps q db.committed
  .ok (commit (stage db ops.1 ops.2))

/-- `Database::search` (`db.rs` lines 250-276): each matched record is
re-parsed fresh from its source file; a record missing its `path` field is a
`CorruptionError`, an unparseable source is silently excluded. -/
def searchZests (env : Env) (db : DB) (q : Record → Bool) :
    Except DatabaseError (List Zest) :=
  go (db.committed.filter q)
where
  go : List Record → Except DatabaseError (List Zest)
    | [] => .ok []
    | r :: rs =>
      match r.path with
      | some (.str s) => do
        let tl ← go rs
        match parseFile env s with
        | .ok z => .ok (z :: tl)
        | .error _ => .ok tl
      | none => .error (.CorruptionError "missing path field")
      | some _ => .error (.CorruptionError "wrong type for path field")

/-- `Database::create` (`db.rs` lines 425-446): refuse if no root paths are
configured; otherwise create the timestamp-named empty file under the first
root, parse it (`unreachable!` if parsing an empty file could fail) and
upsert it through `put` against the filesystem that now contains the new
empty file. -/
def Database.create (env : Env) (db : DB) :
    Except DatabaseError (String × DB × Nat) :=
  if env.paths.isEmpty then
    .error (.ConfigError "The config does not specify paths")
  else
    let root := env.canon (env.paths.headD "")
    let p := root ++ "/" ++ env.createName
    let env' : Env :=
      { env with fs := fun q =>
          if q = env.canon p then some ⟨some env.now, []⟩ else env.fs q }
    match Zest.from_file env.tokenize env.yaml p (some []) with
    | .error _ => .error .UnreachablePanic
    | .ok z => do
      let res ← Database.put env' db z
      .ok (p, res.1, res.2)

/-- `Database::reindex` (`db.rs` lines 474-480): re-derive every committed
document from its source file, stage `delete_all_documents`, and re-add the
whole collection through `put_multiple`'s single commit. -/
def Database.reindex (env : Env) (db : DB) :
    Except DatabaseError (DB × Nat) := do
  let zs ← searchZests env db (fun _ => true)
  let ops ← docsOps env db.committed zs
  .ok (commit (stage db (.delAll :: ops.1) ops.2))

/-- One public mutating operation of the CLI surface. -/
inductive PubOp where
  | putOne (z : Zest)
  | putMany (zs : List Zest)
  | discover
  | updateAll
  | removeBy (q : Record → Bool)
  | createFile
  | reindexAll

/-- Run one public mutating operation.  On an error or a panic the process
aborts: nothing staged in that invocation ever becomes visible and the next
invocation starts with an empty pending queue. -/
def runOp (env : Env) (op : PubOp) (db : DB) : DB :=
  let res : Except DatabaseError DB :=
    match op with
    | .putOne z => (Database.put env db z).map Prod.fst
    | .putMany zs => (Database.put_multiple env db zs).map Prod.fst
    | .discover => (Database.new env db).map Prod.fst
    | .updateAll => (Database.update env db).map Prod.fst
    | .removeBy q => (Database.remove env db q).map Prod.fst
    | .createFile => (Database.create env db).map (fun r => r.2.1)
    | .reindexAll => (Database.reindex env db).map Prod.fst
  match res with
  | .ok db' => db'
  | .error _ => { db with staged := [] }

/-- Run a sequence of public mutating operations, each against the
filesystem snapshot of its own invocation. -/
def runSeq : List (Env × PubOp) → DB → DB
  | [], db => db
  | (env, op) :: rest, db => runSeq rest (runOp env op db)

end ZestModel

namespace ZestModel

/-! ### Claim-side (spec-style) definitions

The definitions in this block follow the wording of the specification, to be
compared against the embedded code. -/

/-- What one markdown event contributes to a heading's text according to the
spec: the text of a text token, the link string of a link token, nothing
otherwise. -/
def contribOf : MdEvent → String
  | .text s => s
  | .startLink _ lt => lt
  | _ => ""

/-- The concatenated contribution of a run of events. -/
def segText : List MdEvent → String
  | [] => ""
  | e :: rest => contribOf e ++ segText rest

/-- The link destinations appearing in a run of events, in order. -/
def segDests (evts : List MdEvent) : List String :=
  evts.filterMap (fun e =>
    match e with
    | .startLink d _ => some d
    | _ => none)

/-- Spec-style segmentation of an event stream into top-level-heading
segments: the text contributed strictly between each H1 start and the next
H1 end, in order of occurrence.  The second argument carries the
contribution accumulated inside an open H1. -/
def h1Contribs : List MdEvent → Option String → List String
  | [], st =>
    match st with
    | none => []
    | some acc => [acc]
  | e :: rest, st =>
    match st with
    | none =>
      if e = .startH 1 then h1Contribs rest (some "")
      else h1Contribs rest none
    | some acc =>
      if e = .endH 1 then acc :: h1Contribs rest none
      else h1Contribs rest (some (acc ++ contribOf e))

/-- Formalization of the claim's title rule: the text and link text
encountered strictly between the start of the *first* top-level heading and
its matching end. -/
def titleSpecFirst (evts : List MdEvent) : String :=
  (h1Contribs evts none).headD ""

/-- The corrected title rule: the contribution of the first top-level-heading
segment that contributes a nonempty string (an empty first H1 leaves the
title empty, so a later H1 may still set it). -/
def titleSpecAmended (evts : List MdEvent) : String :=
  ((h1Contribs evts none).filter (fun s => !s.isEmpty)).headD ""

/-- Is this event an H1 start or H1 end tag? -/
def isH1Tag : MdEvent → Bool
  | .startH 1 => true
  | .endH 1 => true
  | _ => false

/-- Well-formed markdown event streams: H1 tags occur only as properly
matched, non-nested pairs (which is what `pulldown_cmark` emits). -/
inductive WFEvents : List MdEvent → Prop where
  | nil : WFEvents []
  | plain (e : MdEvent) (rest : List MdEvent) :
      isH1Tag e = false → WFEvents rest → WFEvents (e :: rest)
  | seg (body rest : List MdEvent) :
      (∀ e ∈ body, isH1Tag e = false) → WFEvents rest →
      WFEvents (.startH 1 :: body ++ .endH 1 :: rest)

/-- The event stream of the markdown body consisting of an empty top-level
heading followed by a top-level heading `X` (source text `#` then `# X`). -/
def exC3 : List MdEvent :=
  [.startH 1, .endH 1, .startH 1, .text "X", .endH 1]

/-! ### Invariant definitions -/

/-- The committed index never holds two live records for one canonical
path: for every path, at most one committed record carries it. -/
def UniquePaths (c : List Record) : Prop :=
  ∀ p : String, (c.filter (pathIs p)).length ≤ 1

/-- Well-formed staged-operation lists: every added document is staged
directly after the deletion of its own canonical path (the delete-then-add
pair of `put_doc`); bare deletions and `delete_all` may occur anywhere. -/
inductive StagedOk : List Op → Prop where
  | nil : StagedOk []
  | delCons (p : String) (rest : List Op) :
      StagedOk rest → StagedOk (.del p :: rest)
  | delAllCons (rest : List Op) :
      StagedOk rest → StagedOk (.delAll :: rest)
  | block (p : String) (r : Record) (rest : List Op) :
      r.path = some (.str p) → StagedOk rest →
      StagedOk (.del p :: .add r :: rest)

/-- Does this staged operation touch canonical path `p` (delete it, add a
record carrying it, or wipe everything)? -/
def OpTouches (op : Op) (p : String) : Prop :=
  op = .del p ∨ (∃ r, op = .add r ∧ r.path = some (.str p)) ∨ op = .delAll

/-- This staged operation works at canonical path `q`: it is the deletion of
`q` or the addition of a record carrying `q`. -/
def opAt (op : Op) (q : String) : Prop :=
  op = .del q ∨ ∃ doc, op = .add doc ∧ doc.path = some (.str q)

/-- A record exposing a well-typed `path` and a well-typed `lastmod` field,
the two fields `Database::update` reads back from every visited record. -/
def WFRec (r : Record) : Prop :=
  (∃ p, r.path = some (.str p)) ∧ (∃ t, r.lastmod = some (.date t))

/-- All committed records expose a well-typed path and last-modified field. -/
def WFRecords (c : List Record) : Prop :=
  ∀ r ∈ c, WFRec r

/-! ### Concrete instances used by counterexamples and witnesses -/

/-- An empty database at sequence number zero. -/
def db0 : DB := ⟨[], [], 0, []⟩

/-- A committed record for `/a/other.md`. -/
def rA : Record :=
  ⟨some (.str "/a/other.md"), some (.date 1), "A", "/a/other.md", "",
   [], [], [], []⟩

/-- A committed record for `/b/other.md`. -/
def rB : Record :=
  ⟨some (.str "/b/other.md"), some (.date 1), "B", "/b/other.md", "",
   [], [], [], []⟩

/-- Environment with two indexed files both matching the reference
`other.md` under tantivy's tokenized file-field match (modelled as substring
containment), plus a source file `/n/src.md` about to be staged. -/
def envC9 : Env :=
  { paths := []
    walkFiles := []
    fs := fun p => if p = "/n/src.md" then some ⟨some 5, []⟩ else none
    canon := id
    fileQuery := fun q f => decide (q.data <:+: f.data)
    tokenize := pulldownModel
    yaml := yamlModel
    now := 0
    createName := "x.md" }

/-- A document holding one raw reference `other.md`. -/
def zC9 : Zest := ⟨"S", "body", "/n/src.md", ["other.md"], {}, []⟩

/-- Extract, from a `put_doc` result, the resolved backreference list of the
staged document. -/
def addedRefsOf (r : Except DatabaseError (List Op × List LogMsg)) :
    Option (List String) :=
  match r with
  | .ok ([.del _, .add doc], _) => some doc.reff
  | _ => none

/-- Extract, from a `put_doc` result, the number of warning-level log
messages it emitted. -/
def warnCountOf (r : Except DatabaseError (List Op × List LogMsg)) :
    Option Nat :=
  match r with
  | .ok (_, logs) => some ((logs.filter (fun m => m.level == .warn)).length)
  | .error _ => none

/-- Environment with one configured root holding a single file whose front
matter is malformed, so parsing it always fails. -/
def envC5 : Env :=
  { paths := ["/r"]
    walkFiles := ["/r/bad.md"]
    fs := fun p =>
      if p = "/r/bad.md" then some ⟨some 3, ["---", "not yaml", "---", "# T"]⟩
      else none
    canon := id
    fileQuery := fun _ _ => false
    tokenize := pulldownModel
    yaml := yamlModel
    now := 0
    createName := "c.md" }

/-- Environment with one configured root holding a single well-formed file. -/
def envG : Env :=
  { paths := ["/r"]
    walkFiles := ["/r/good.md"]
    fs := fun p =>
      if p = "/r/good.md" then some ⟨some 3, ["# Foo", "Bar [Baz](other.md)"]⟩
      else none
    canon := id
    fileQuery := fun _ _ => false
    tokenize := pulldownModel
    yaml := yamlModel
    now := 0
    createName := "c.md" }

/-- The record the first discovery run over `envG` commits for
`/r/good.md`. -/
def rGood : Record :=
  ⟨some (.str "/r/good.md"), some (.date 3), "Foo", "/r/good.md", "Bar Baz",
   [], [], [], []⟩

/-- The database state after the first discovery run over `envG` from the
empty store. -/
def db1G : DB :=
  ⟨[rGood], [], 1,
   [⟨.info, "/r/good.md is not tracked yet, adding it"⟩,
    ⟨.debug, "Inserting"⟩,
    ⟨.trace, "Remove previously existing entries"⟩,
    ⟨.trace, "Creating /r/good.md with modified time"⟩,
    ⟨.debug, "Adding"⟩]⟩

/-- A committed record whose source file has disappeared (no entry in
`envDel.fs`). -/
def rGone : Record :=
  ⟨some (.str "/r/gone.md"), some (.date 2), "Gone", "/r/gone.md", "",
   [], [], [], []⟩

/-- Environment whose filesystem is empty: every tracked file has been
deleted. -/
def envDel : Env :=
  { paths := ["/r"]
    walkFiles := []
    fs := fun _ => none
    canon := id
    fileQuery := fun _ _ => false
    tokenize := pulldownModel
    yaml := yamlModel
    now := 0
    createName := "c.md" }

/-- A store tracking only `rGone`, whose source file no longer exists. -/
def dbDel : DB := ⟨[rGone], [], 0, []⟩

/-- A committed record missing its `lastmod` field. -/
def rBad : Record :=
  ⟨some (.str "/r/bad.md"), none, "Bad", "/r/bad.md", "", [], [], [], []⟩

end ZestModel

namespace ZestModel

/-- The `path` field of a record read back as text (`get_first(path)` then
`.text()`), if present and well-typed. -/
def pathText (r : Record) : Option String :=
  match r.path with
  | some (.str s) => some s
  | _ => none

end ZestModel

namespace ZestModel

/-! ## Theorems -/

-- The inner loop of `Database::list`: its successful value is exactly the
-- text of the `path` field of each processed record.
theorem listPaths_go_ok (l : List Record) (v : List String)
    (h : listPaths.go l = .ok v) : v = l.filterMap pathText := by
  induction l generalizing v with
  | nil => simp [listPaths.go] at h; simp [h]
  | cons r rs ih =>
    unfold listPaths.go at h
    cases hp : r.path with
    | none => rw [hp] at h; exact absurd h (by simp)
    | some fv =>
      cases fv with
      | date t => rw [hp] at h; exact absurd h (by simp)
      | str s =>
        rw [hp] at h
        cases hg : listPaths.go rs with
        | error e => rw [hg] at h; exact absurd h (by simp [Bind.bind, Except.bind])
        | ok tl =>
          rw [hg] at h
          simp [Bind.bind, Except.bind] at h
          subst h
          simp [List.filterMap_cons, pathText, hp, ih tl hg]

-- A successful `file:`-scoped `list` call returns the paths of exactly the
-- committed records whose `file` field matches the query.
theorem listPaths_ok (env : Env) (c : List Record) (q : String)
    (v : List String) (h : listPaths env c q = .ok v) :
    v = (c.filter (fun r => env.fileQuery q r.file)).filterMap pathText :=
  listPaths_go_ok _ v h

-- A successful run of the reference-resolution loop records every match of
-- every reference, and logs only info-level messages.
theorem resolveRefs_ok (env : Env) (c : List Record) (f : String)
    (refs : List String) (ms : List String) (ls : List LogMsg)
    (h : resolveRefs env c f refs = .ok (ms, ls)) :
    ms = refs.flatMap (fun q =>
      (c.filter (fun r => env.fileQuery q r.file)).filterMap pathText) ∧
    ∀ m ∈ ls, m.level = .info := by
  induction refs generalizing ms ls with
  | nil => simp [resolveRefs] at h; simp [h.1, h.2]
  | cons reff rest ih =>
    unfold resolveRefs at h
    cases h1 : listPaths env c reff with
    | error e => rw [h1] at h; exact absurd h (by simp [Bind.bind, Except.bind])
    | ok vs =>
      rw [h1] at h
      cases h2 : resolveRefs env c f rest with
      | error e => rw [h2] at h; exact absurd h (by simp [Bind.bind, Except.bind])
      | ok tl =>
        rw [h2] at h
        simp [Bind.bind, Except.bind] at h
        obtain ⟨hms, hls⟩ := h
        obtain ⟨ihm, ihl⟩ := ih tl.1 tl.2 (by rw [h2])
        constructor
        · rw [← hms, listPaths_ok env c reff vs h1, ihm]
          simp
        · intro m hm
          rw [← hls] at hm
          rcases List.mem_append.mp hm with hm1 | hm2
          · obtain ⟨x, _, hx⟩ := List.mem_map.mp hm1
            rw [← hx]
          · exact ihl m hm2

/-- Claim C9 (corrected): for every reference on a document being staged,
`put_doc` issues a file-scoped query and records *all* matching paths as
resolved backreferences, whatever the match count; but contrary to the claim
it logs only info-level lines for the matches — no ambiguity warning (and no
broken-link message) is ever emitted on this path, so when the mtime is
readable the staging emits no warning at all. -/
theorem C9_all_matches_recorded (env : Env) (c : List Record) (z : Zest)
    (fd : FileData) (ops : List Op) (logs : List LogMsg)
    (hfs : env.fs (env.canon z.file) = some fd) (hmt : fd.mtime.isSome = true)
    (h : putDocOps env c z = .ok (ops, logs)) :
    (∃ doc, ops = [.del (env.canon z.file), .add doc] ∧
       doc.reff = z.refs.flatMap (fun q =>
         (c.filter (fun r => env.fileQuery q r.file)).filterMap pathText)) ∧
    ∀ m ∈ logs, m.level ≠ .warn := by
  unfold putDocOps at h
  dsimp only at h
  rw [hfs] at h
  dsimp only at h
  obtain ⟨t, ht⟩ := Option.isSome_iff_exists.mp hmt
  rw [ht] at h
  cases hrr : resolveRefs env c (env.canon z.file) z.refs with
  | error e => rw [hrr] at h; exact absurd h (by simp [Bind.bind, Except.bind])
  | ok res =>
    rw [hrr] at h
    simp [Bind.bind, Except.bind] at h
    obtain ⟨hops, hlogs⟩ := h
    obtain ⟨hm, hl⟩ := resolveRefs_ok env c _ _ _ _ (by rw [hrr])
    constructor
    · exact ⟨_, hops.symm, by simpa using hm⟩
    · intro m hmem
      rw [← hlogs] at hmem
      have hlv : m.level = LogLevel.debug ∨ m.level = LogLevel.trace ∨
          m.level = LogLevel.info := by
        simp only [List.mem_cons, List.mem_append, List.mem_singleton,
          List.mem_nil_iff, or_false] at hmem
        rcases hmem with h1 | h1 | h1 | h1 | h1
        · left; rw [h1]
        · right; left; rw [h1]
        · right; left; rw [h1]
        · right; right; exact hl m h1
        · left; rw [h1]
      rcases hlv with hv | hv | hv <;> rw [hv] <;> decide

/-- Claim C9, witness: the corrected statement evaluated on a database with
two files matching the single reference of the staged document. -/
theorem C9_all_matches_recorded_witness :
    (∃ doc, [Op.del "/n/src.md",
        Op.add ⟨some (.str "/n/src.md"), some (.date 5), "S", "/n/src.md",
          "body", [], ["/a/other.md", "/b/other.md"], [], []⟩] =
        [.del (envC9.canon zC9.file), .add doc] ∧
       doc.reff = zC9.refs.flatMap (fun q =>
         (([rA, rB]).filter (fun r => envC9.fileQuery q r.file)).filterMap
           pathText)) ∧
    ∀ m ∈ [(⟨.debug, "Inserting"⟩ : LogMsg),
        ⟨.trace, "Remove previously existing entries"⟩,
        ⟨.trace, "Creating /n/src.md with modified time"⟩,
        ⟨.info, "/n/src.md references /a/other.md"⟩,
        ⟨.info, "/n/src.md references /b/other.md"⟩,
        ⟨.debug, "Adding"⟩], m.level ≠ .warn :=
  C9_all_matches_recorded envC9 [rA, rB] zC9 ⟨some 5, []⟩ _ _ rfl rfl rfl

/-- Claim C9, counterexample to the claim as stated: staging a document
whose single reference matches two indexed files records both paths but
emits zero warning-level log messages — no ambiguity warning is logged. -/
theorem C9_no_ambiguity_warning :
    addedRefsOf (putDocOps envC9 [rA, rB] zC9) =
      some ["/a/other.md", "/b/other.md"] ∧
    warnCountOf (putDocOps envC9 [rA, rB] zC9) = some 0 := by decide

-- Parsing the empty file: no lines, no events, empty metadata, so the
-- result is the all-empty document.
theorem from_file_empty (tok : String → List MdEvent)
    (ym : String → Option ZestMeta) (src : String) (h : tok "" = []) :
    Zest.from_file tok ym src (some []) = .ok ⟨"", "", src, [], {}, []⟩ := by
  simp [Zest.from_file, splitHeader, processEvents, h]
  rfl

/-- Claim C10: `Zest::from_file` on an empty readable file succeeds with
empty title, content, references and tags; consequently `Database::create`
can never hit the branch guarded by
`unreachable!("zest should consider empty files as valid")` for the empty
file it has just created. -/
theorem C10_empty_file_valid :
    (∀ (tok : String → List MdEvent) (ym : String → Option ZestMeta)
        (src : String), tok "" = [] →
       Zest.from_file tok ym src (some []) = .ok ⟨"", "", src, [], {}, []⟩) ∧
    (∀ (env : Env) (db : DB), env.tokenize "" = [] →
       Database.create env db ≠ .error .UnreachablePanic) := by
  refine ⟨from_file_empty, ?_⟩
  intro env db h hc
  unfold Database.create at hc
  by_cases hp : env.paths.isEmpty
  · simp [hp] at hc
  · simp only [hp, if_false] at hc
    rw [from_file_empty env.tokenize env.yaml _ h] at hc
    simp [Database.put, putDocOps, resolveRefs, Bind.bind, Except.bind] at hc

/-- Claim C10, witness: the statement instantiated with the modelled
tokenizer, a concrete path, and a concrete configured environment. -/
theorem C10_empty_file_valid_witness :
    Zest.from_file pulldownModel yamlModel "/r/new.md" (some []) =
      .ok ⟨"", "", "/r/new.md", [], {}, []⟩ ∧
    Database.create envG db0 ≠ .error .UnreachablePanic :=
  ⟨C10_empty_file_valid.1 pulldownModel yamlModel "/r/new.md" rfl,
   C10_empty_file_valid.2 envG db0 rfl⟩

/-- Claim C7, counterexample to the claim as stated: a commit over an empty
staged set does leave the committed index unchanged, but a second empty
commit returns a *different* (strictly larger) sequence number, not a stable
one. -/
theorem C7_empty_commit_not_stable :
    (commit db0).1.committed = db0.committed ∧
    (commit ((commit db0).1)).2 ≠ (commit db0).2 := by decide

/-- Claim C7 (corrected): committing an empty staged set leaves the
committed index unchanged, and every commit — staged work or not — returns
the strictly increased sequence number. -/
theorem C7_commit_seq (db : DB) (h : db.staged = []) :
    (commit db).1.committed = db.committed ∧
    (commit db).2 = db.stamp + 1 ∧ db.stamp < (commit db).2 := by
  refine ⟨?_, rfl, Nat.lt_succ_self _⟩
  show applyOps db.committed db.staged = db.committed
  rw [h]; rfl

/-- Claim C7, witness: the corrected statement evaluated at the empty
database. -/
theorem C7_commit_seq_witness :
    (commit db0).1.committed = db0.committed ∧
    (commit db0).2 = db0.stamp + 1 ∧ db0.stamp < (commit db0).2 :=
  C7_commit_seq db0 rfl

/-- Claim C8: a file whose body is `# Foo\nBar [Baz](other.md)` parses to
title `Foo`, a content containing both `Bar` and `Baz`, and the reference
list `[other.md]`. -/
theorem C8_round_trip :
    ∃ z, Zest.from_file pulldownModel yamlModel "/notes/a.md"
        (some ["# Foo", "Bar [Baz](other.md)"]) = .ok z ∧
      z.title = "Foo" ∧
      List.IsInfix "Bar".data z.content.data ∧
      List.IsInfix "Baz".data z.content.data ∧
      z.refs = ["other.md"] :=
  ⟨⟨"Foo", "Bar Baz", "/notes/a.md", ["other.md"], {}, []⟩,
    rfl, rfl, by decide, by decide, rfl⟩

/-- Claim C4 (code bug): parsing a file holding a fenced code block yields a
document whose code-block list is empty and whose `content` *contains* the
code body — `zest.rs` has no code-block handling even though
`Database::put_doc` (`db.rs` lines 204-212) reads `z.codeblocks`, so the
separate code-block list the claim (and the caller) expects is never
populated and the body text is not excluded from content. -/
theorem C4_codeblocks_not_separated :
    ∃ z, Zest.from_file pulldownModel yamlModel "/notes/code.md"
        (some ["```rust", "let x = 1;", "```"]) = .ok z ∧
      z.codeblocks = [] ∧ List.IsInfix "let x = 1;".data z.content.data :=
  ⟨⟨"", "let x = 1;\n", "/notes/code.md", [], {}, []⟩, rfl, rfl, by decide⟩

end ZestModel

namespace ZestModel

-- Once a nonempty title has been accumulated and the loop is outside a
-- title, no further event can modify the title or re-enter title mode (the
-- guard `title.is_empty()` fails forever).

theorem step_title_locked (acc : ParseAcc) (e : MdEvent)
    (h1 : acc.inTitle = false) (h2 : acc.title.isEmpty = false) :
    (step acc e).title = acc.title ∧ (step acc e).inTitle = false := by
  obtain ⟨it, t, ct, rf⟩ := acc
  simp only at h1 h2
  subst h1
  cases e with
  | startH lvl =>
    rcases lvl with _ | _ | n <;> simp [step, h2]
  | endH lvl =>
    rcases lvl with _ | _ | n <;> simp [step]
  | _ => simp [step]

theorem foldl_title_locked (evts : List MdEvent) (acc : ParseAcc)
    (h1 : acc.inTitle = false) (h2 : acc.title.isEmpty = false) :
    (evts.foldl step acc).title = acc.title ∧
    (evts.foldl step acc).inTitle = false := by
  induction evts generalizing acc with
  | nil => exact ⟨rfl, h1⟩
  | cons e rest ih =>
    obtain ⟨ht, hi⟩ := step_title_locked acc e h1 h2
    obtain ⟨ht', hi'⟩ := ih (step acc e) hi (by rw [ht]; exact h2)
    exact ⟨by rw [List.foldl_cons, ht', ht], by rw [List.foldl_cons]; exact hi'⟩

theorem step_plain (acc : ParseAcc) (e : MdEvent)
    (h1 : acc.inTitle = false) (he : isH1Tag e = false) :
    (step acc e).title = acc.title ∧ (step acc e).inTitle = false := by
  obtain ⟨it, t, ct, rf⟩ := acc
  simp only at h1
  subst h1
  cases e with
  | startH lvl =>
    rcases lvl with _ | _ | n <;> simp_all [step, isH1Tag]
  | endH lvl =>
    rcases lvl with _ | _ | n <;> simp_all [step, isH1Tag]
  | _ => simp [step]

theorem foldl_in_title (body : List MdEvent) (acc : ParseAcc)
    (hb : ∀ e ∈ body, isH1Tag e = false) (h1 : acc.inTitle = true) :
    body.foldl step acc =
      ⟨true, acc.title ++ segText body, acc.content,
       acc.refs ++ segDests body⟩ := by
  induction body generalizing acc with
  | nil =>
    obtain ⟨it, t, ct, rf⟩ := acc
    simp only at h1
    subst h1
    simp [segText, segDests]
  | cons e rest ih =>
    have he := hb e (List.mem_cons_self e rest)
    have hbr : ∀ x ∈ rest, isH1Tag x = false :=
      fun x hx => hb x (List.mem_cons_of_mem e hx)
    obtain ⟨it, t, ct, rf⟩ := acc
    simp only at h1
    subst h1
    rw [List.foldl_cons]
    cases e with
    | startH lvl =>
      rcases lvl with _ | _ | n <;> simp_all [step, isH1Tag, segText, segDests,
        contribOf, ih, String.append_assoc]
    | endH lvl =>
      rcases lvl with _ | _ | n <;> simp_all [step, isH1Tag, segText, segDests,
        contribOf, ih, String.append_assoc]
    | text s =>
      rw [show step ⟨true, t, ct, rf⟩ (.text s) = ⟨true, t ++ s, ct, rf⟩ from rfl,
        ih _ hbr rfl]
      simp [segText, segDests, contribOf, String.append_assoc]
    | startLink d lt =>
      rw [show step ⟨true, t, ct, rf⟩ (.startLink d lt) =
            ⟨true, t ++ lt, ct, rf ++ [d]⟩ from rfl, ih _ hbr rfl]
      simp [segText, segDests, contribOf, String.append_assoc]
    | endLink =>
      rw [show step ⟨true, t, ct, rf⟩ .endLink = ⟨true, t, ct, rf⟩ from rfl,
        ih _ hbr rfl]
      simp [segText, segDests, contribOf]
    | softBreak =>
      rw [show step ⟨true, t, ct, rf⟩ .softBreak = ⟨true, t, ct, rf⟩ from rfl,
        ih _ hbr rfl]
      simp [segText, segDests, contribOf]
    | hardBreak =>
      rw [show step ⟨true, t, ct, rf⟩ .hardBreak = ⟨true, t, ct, rf⟩ from rfl,
        ih _ hbr rfl]
      simp [segText, segDests, contribOf]
    | startCodeBlock lg =>
      rw [show step ⟨true, t, ct, rf⟩ (.startCodeBlock lg) = ⟨true, t, ct, rf⟩
          from rfl, ih _ hbr rfl]
      simp [segText, segDests, contribOf]
    | endCodeBlock =>
      rw [show step ⟨true, t, ct, rf⟩ .endCodeBlock = ⟨true, t, ct, rf⟩ from rfl,
        ih _ hbr rfl]
      simp [segText, segDests, contribOf]
    | startPara =>
      rw [show step ⟨true, t, ct, rf⟩ .startPara = ⟨true, t, ct, rf⟩ from rfl,
        ih _ hbr rfl]
      simp [segText, segDests, contribOf]
    | endPara =>
      rw [show step ⟨true, t, ct, rf⟩ .endPara = ⟨true, t, ct, rf⟩ from rfl,
        ih _ hbr rfl]
      simp [segText, segDests, contribOf]


theorem h1Contribs_seg (body : List MdEvent) (rest : List MdEvent)
    (acc : String) (hb : ∀ e ∈ body, isH1Tag e = false) :
    h1Contribs (body ++ .endH 1 :: rest) (some acc) =
      (acc ++ segText body) :: h1Contribs rest none := by
  induction body generalizing acc with
  | nil => simp [h1Contribs, segText]
  | cons e rst ih =>
    have he : e ≠ MdEvent.endH 1 := by
      intro hh
      have := hb e (List.mem_cons_self e rst)
      rw [hh] at this
      exact absurd this (by decide)
    have hbr : ∀ x ∈ rst, isH1Tag x = false :=
      fun x hx => hb x (List.mem_cons_of_mem e hx)
    rw [List.cons_append]
    rw [show h1Contribs (e :: (rst ++ MdEvent.endH 1 :: rest)) (some acc) =
        if e = .endH 1 then acc :: h1Contribs (rst ++ .endH 1 :: rest) none
        else h1Contribs (rst ++ .endH 1 :: rest) (some (acc ++ contribOf e))
        from rfl]
    rw [if_neg he, ih _ hbr]
    simp [segText, String.append_assoc]

theorem title_amended_main (evts : List MdEvent) (h : WFEvents evts) :
    ∀ acc : ParseAcc, acc.inTitle = false → acc.title = "" →
      (evts.foldl step acc).title =
        ((h1Contribs evts none).filter (fun s => !s.isEmpty)).headD "" := by
  induction h with
  | nil =>
    intro acc h1 h2
    simp [h1Contribs, h2]
  | plain e rest hne hrest ih =>
    intro acc h1 h2
    obtain ⟨ht, hi⟩ := step_plain acc e h1 hne
    have hstart : e ≠ MdEvent.startH 1 := by
      intro hh; rw [hh] at hne; exact absurd hne (by decide)
    rw [List.foldl_cons, ih (step acc e) hi (by rw [ht, h2]),
      show h1Contribs (e :: rest) none =
        if e = .startH 1 then h1Contribs rest (some "")
        else h1Contribs rest none from rfl,
      if_neg hstart]
  | seg body rest hb hrest ih =>
    intro acc h1 h2
    obtain ⟨it, t, ct, rf⟩ := acc
    simp only at h1 h2
    subst h1; subst h2
    rw [show ((MdEvent.startH 1 :: body ++ MdEvent.endH 1 :: rest : List MdEvent)) =
        MdEvent.startH 1 :: (body ++ MdEvent.endH 1 :: rest) from rfl]
    rw [List.foldl_cons,
      show step ⟨false, "", ct, rf⟩ (.startH 1) = ⟨true, "", ct, rf⟩ from rfl,
      List.foldl_append,
      foldl_in_title body ⟨true, "", ct, rf⟩ hb rfl]
    simp only []
    rw [List.foldl_cons,
      show step ⟨true, "" ++ segText body, ct, rf ++ segDests body⟩ (.endH 1) =
        ⟨false, "" ++ segText body, ct, rf ++ segDests body⟩ from rfl]
    rw [show h1Contribs (MdEvent.startH 1 :: (body ++ MdEvent.endH 1 :: rest)) none =
        h1Contribs (body ++ MdEvent.endH 1 :: rest) (some "") from rfl,
      h1Contribs_seg body rest "" hb]
    have hemp : ("" : String) ++ segText body = segText body := by simp
    rw [hemp]
    by_cases hseg : (segText body).isEmpty = true
    · have hseg' : segText body = "" := (String.isEmpty_iff _).mp hseg
      rw [hseg']
      rw [show List.filter (fun s => !s.isEmpty) ("" :: h1Contribs rest none) =
          List.filter (fun s => !s.isEmpty) (h1Contribs rest none) from by
        rw [List.filter_cons_of_neg]; decide]
      exact ih ⟨false, "", ct, rf ++ segDests body⟩ rfl rfl
    · have hf : (segText body).isEmpty = false := by
        cases hb2 : (segText body).isEmpty
        · rfl
        · exact absurd hb2 hseg
      obtain ⟨hti, _⟩ := foldl_title_locked rest
        ⟨false, segText body, ct, rf ++ segDests body⟩ rfl hf
      rw [hti]
      rw [show List.filter (fun s => !s.isEmpty)
            (segText body :: h1Contribs rest none) =
          segText body :: List.filter (fun s => !s.isEmpty)
            (h1Contribs rest none) from by
        rw [List.filter_cons_of_pos]; simp [hf]]
      rfl


/-- Claim C3 (corrected): the parsed title is the text/link text of the
*first top-level-heading segment with a nonempty contribution* — not
unconditionally the first segment: H1 segments whose contribution is empty
leave the title empty, so a later top-level heading can still set it; once
the title is nonempty all further top-level headings are ordinary content. -/
theorem C3_title_first_nonempty_h1 (evts : List MdEvent) (h : WFEvents evts) :
    (processEvents evts).title = titleSpecAmended evts :=
  title_amended_main evts h ⟨false, "", "", []⟩ rfl rfl

/-- Claim C3, witness: the corrected statement evaluated on the stream of an
empty first H1 followed by `# X`. -/
theorem C3_title_first_nonempty_h1_witness :
    (processEvents exC3).title = titleSpecAmended exC3 :=
  C3_title_first_nonempty_h1 exC3
    (WFEvents.seg [] _ (by simp)
      (WFEvents.seg [.text "X"] [] (by decide) WFEvents.nil))

/-- Claim C3, counterexample to the claim as stated: for the body `#`
followed by `# X` (first top-level heading empty), the parsed title is `X`,
while the text strictly between the first H1 start and its matching end is
empty — the second top-level heading *does* set the title. -/
theorem C3_second_heading_can_retitle :
    (processEvents exC3).title ≠ titleSpecFirst exC3 ∧
    (processEvents exC3).title = "X" ∧ titleSpecFirst exC3 = "" := by decide

end ZestModel

namespace ZestModel

-- `pathIs` unfolded to a propositional equality on the path field.

theorem pathIs_iff (p : String) (r : Record) :
    pathIs p r = true ↔ r.path = some (.str p) := by
  simp [pathIs]

theorem applyOps_append (c : List Record) (a b : List Op) :
    applyOps c (a ++ b) = applyOps (applyOps c a) b :=
  List.foldl_append applyOp c a b

theorem StagedOk_append {a b : List Op} (ha : StagedOk a) (hb : StagedOk b) :
    StagedOk (a ++ b) := by
  induction ha with
  | nil => exact hb
  | delCons p rest _ ih => exact StagedOk.delCons p _ ih
  | delAllCons rest _ ih => exact StagedOk.delAllCons _ ih
  | block p r rest hr _ ih => exact StagedOk.block p r _ hr ih

theorem filter_del_self (c : List Record) (p : String) :
    (applyOp c (.del p)).filter (pathIs p) = [] := by
  simp only [applyOp, List.filter_filter]
  apply List.filter_eq_nil_iff.mpr
  intro r _
  cases h : pathIs p r <;> simp [h]

theorem filter_del_ne (c : List Record) (p q : String) (h : q ≠ p) :
    (applyOp c (.del q)).filter (pathIs p) = c.filter (pathIs p) := by
  simp only [applyOp, List.filter_filter]
  apply List.filter_congr
  intro r _
  cases hp : pathIs p r
  · simp
  · have hpp : r.path = some (.str p) := (pathIs_iff p r).mp hp
    have hqf : pathIs q r = false := by
      simp only [pathIs, hpp, decide_eq_false_iff_not]
      intro he
      injection he with h1
      injection h1 with h2
      exact h h2.symm
    simp [hqf]

theorem filter_add (c : List Record) (r : Record) (p : String) :
    (applyOp c (.add r)).filter (pathIs p) =
      c.filter (pathIs p) ++ if pathIs p r then [r] else [] := by
  simp only [applyOp, List.filter_append]
  cases h : pathIs p r <;> simp [h]

theorem applyOps_untouched (c : List Record) (ops : List Op) (p : String)
    (h : ∀ op ∈ ops, ¬ OpTouches op p) :
    (applyOps c ops).filter (pathIs p) = c.filter (pathIs p) := by
  induction ops generalizing c with
  | nil => rfl
  | cons op rest ih =>
    have hop := h op (List.mem_cons_self op rest)
    have hrest : ∀ x ∈ rest, ¬ OpTouches x p :=
      fun x hx => h x (List.mem_cons_of_mem op hx)
    rw [show applyOps c (op :: rest) = applyOps (applyOp c op) rest from rfl,
      ih (applyOp c op) hrest]
    cases op with
    | del q =>
      apply filter_del_ne
      intro hq
      exact hop (Or.inl (by rw [hq]))
    | add r =>
      rw [filter_add]
      have : pathIs p r = false := by
        cases hq : pathIs p r
        · rfl
        · exact absurd (Or.inr (Or.inl ⟨r, rfl, (pathIs_iff p r).mp hq⟩)) hop
      simp [this]
    | delAll => exact absurd (Or.inr (Or.inr rfl)) hop

theorem applyOps_unique (c : List Record) (ops : List Op)
    (hu : UniquePaths c) (hs : StagedOk ops) :
    UniquePaths (applyOps c ops) := by
  induction hs generalizing c with
  | nil => exact hu
  | delCons p rest _ ih =>
    apply ih
    intro q
    calc ((applyOp c (.del p)).filter (pathIs q)).length
        ≤ (c.filter (pathIs q)).length :=
          List.Sublist.length_le (List.Sublist.filter _ (List.filter_sublist c))
      _ ≤ 1 := hu q
  | delAllCons rest _ ih =>
    apply ih
    intro q
    simp [applyOp]
  | block p r rest hr _ ih =>
    have h2 : applyOps c (Op.del p :: Op.add r :: rest) =
        applyOps (applyOp (applyOp c (.del p)) (.add r)) rest := rfl
    rw [h2]
    apply ih
    intro q
    rw [filter_add]
    by_cases hq : q = p
    · subst hq
      rw [filter_del_self]
      have : pathIs q r = true := (pathIs_iff q r).mpr hr
      simp [this]
    · rw [filter_del_ne c q p (fun hh => hq hh.symm)]
      have hqf : pathIs q r = false := by
        simp only [pathIs, hr, decide_eq_false_iff_not]
        intro he
        injection he with h1
        injection h1 with h2
        exact hq h2.symm
      simp only [hqf, Bool.false_eq_true, if_false, List.append_nil]
      exact hu q


theorem putDocOps_shape (env : Env) (c : List Record) (z : Zest)
    (ops : List Op) (logs : List LogMsg)
    (h : putDocOps env c z = .ok (ops, logs)) :
    ∃ fd res, env.fs (env.canon z.file) = some fd ∧
      resolveRefs env c (env.canon z.file) z.refs = .ok res ∧
      ops = [.del (env.canon z.file),
             .add { path := some (.str (env.canon z.file))
                    lastmod := fd.mtime.map .date
                    title := z.title
                    file := env.canon z.file
                    content := z.content
                    tags := z.metadata.tags
                    reff := res.1
                    lang := z.codeblocks.filterMap (fun cb => cb.language)
                    code := z.codeblocks.filterMap (fun cb => cb.code) }] := by
  unfold putDocOps at h
  dsimp only at h
  cases hfs : env.fs (env.canon z.file) with
  | none => rw [hfs] at h; exact absurd h (by simp)
  | some fd =>
    rw [hfs] at h
    dsimp only at h
    cases hrr : resolveRefs env c (env.canon z.file) z.refs with
    | error e => rw [hrr] at h; exact absurd h (by simp [Bind.bind, Except.bind])
    | ok res =>
      rw [hrr] at h
      simp only [Bind.bind, Except.bind, Except.ok.injEq, Prod.mk.injEq] at h
      exact ⟨fd, res, rfl, rfl, h.1.symm⟩

theorem docsOps_stagedOk (env : Env) (c : List Record) (zs : List Zest)
    (ops : List Op) (logs : List LogMsg)
    (h : docsOps env c zs = .ok (ops, logs)) : StagedOk ops := by
  induction zs generalizing ops logs with
  | nil => simp [docsOps] at h; rw [h.1]; exact StagedOk.nil
  | cons z rest ih =>
    unfold docsOps at h
    cases h1 : putDocOps env c z with
    | error e => rw [h1] at h; exact absurd h (by simp [Bind.bind, Except.bind])
    | ok hd =>
      rw [h1] at h
      cases h2 : docsOps env c rest with
      | error e => rw [h2] at h; exact absurd h (by simp [Bind.bind, Except.bind])
      | ok tl =>
        rw [h2] at h
        simp only [Bind.bind, Except.bind, Except.ok.injEq, Prod.mk.injEq] at h
        rw [← h.1]
        obtain ⟨fd, res, _, _, hops⟩ := putDocOps_shape env c z hd.1 hd.2 (by
          rw [h1])
        rw [hops]
        exact StagedOk.block _ _ _ rfl (ih tl.1 tl.2 (by rw [h2]))

theorem checkNewOps_stagedOk (env : Env) (c : List Record)
    (ops : List Op) (logs : List LogMsg)
    (h : checkNewOps env c = .ok (ops, logs)) : StagedOk ops := by
  unfold checkNewOps at h
  dsimp only at h
  cases h1 : docsOps env c (cnDocs env c env.walkFiles).1 with
  | error e => rw [h1] at h; exact absurd h (by simp [Bind.bind, Except.bind])
  | ok pr =>
    rw [h1] at h
    simp only [Bind.bind, Except.bind, Except.ok.injEq, Prod.mk.injEq] at h
    rw [← h.1]
    exact docsOps_stagedOk env c _ pr.1 pr.2 (by rw [h1])

theorem visitOps_stagedOk (env : Env) (c : List Record) (r : Record)
    (ops : List Op) (logs : List LogMsg)
    (h : visitOps env c r = .ok (ops, logs)) : StagedOk ops := by
  unfold visitOps at h
  cases hp : r.path with
  | none => rw [hp] at h; exact absurd h (by simp [Bind.bind, Except.bind])
  | some fv =>
    cases fv with
    | date t => rw [hp] at h; exact absurd h (by simp [Bind.bind, Except.bind])
    | str p =>
      rw [hp] at h
      cases hm : r.lastmod with
      | none => rw [hm] at h; exact absurd h (by simp [Bind.bind, Except.bind])
      | some fv2 =>
        cases fv2 with
        | str s => rw [hm] at h; exact absurd h (by simp [Bind.bind, Except.bind])
        | date m =>
          rw [hm] at h
          simp only [Bind.bind, Except.bind] at h
          cases hfs : env.fs p with
          | none =>
            rw [hfs] at h
            simp only [Except.ok.injEq, Prod.mk.injEq] at h
            rw [← h.1]
            exact StagedOk.delCons p [] StagedOk.nil
          | some fd =>
            rw [hfs] at h
            dsimp only at h
            cases hmt : fd.mtime with
            | none => rw [hmt] at h; exact absurd h (by simp)
            | some t =>
              rw [hmt] at h
              dsimp only at h
              by_cases hlt : m < t
              · rw [if_pos hlt] at h
                cases hpf : parseFile env p with
                | error e =>
                  rw [hpf] at h
                  simp only [Except.ok.injEq, Prod.mk.injEq] at h
                  rw [← h.1]
                  exact StagedOk.nil
                | ok z =>
                  rw [hpf] at h
                  dsimp only at h
                  cases hpd : putDocOps env c z with
                  | error e =>
                    rw [hpd] at h
                    exact absurd h (by simp [Bind.bind, Except.bind])
                  | ok pr =>
                    rw [hpd] at h
                    simp only [Bind.bind, Except.bind, Except.ok.injEq,
                      Prod.mk.injEq] at h
                    rw [← h.1]
                    obtain ⟨fd2, res2, _, _, hops⟩ :=
                      putDocOps_shape env c z pr.1 pr.2 (by rw [hpd])
                    rw [hops]
                    exact StagedOk.block _ _ _ rfl StagedOk.nil
              · rw [if_neg hlt] at h
                simp only [Except.ok.injEq, Prod.mk.injEq] at h
                rw [← h.1]
                exact StagedOk.nil

theorem visitAll_stagedOk (env : Env) (c : List Record) (rs : List Record)
    (ops : List Op) (logs : List LogMsg)
    (h : visitAll env c rs = .ok (ops, logs)) : StagedOk ops := by
  induction rs generalizing ops logs with
  | nil => simp [visitAll] at h; rw [h.1]; exact StagedOk.nil
  | cons r rest ih =>
    unfold visitAll at h
    cases h1 : visitOps env c r with
    | error e => rw [h1] at h; exact absurd h (by simp [Bind.bind, Except.bind])
    | ok hd =>
      rw [h1] at h
      cases h2 : visitAll env c rest with
      | error e => rw [h2] at h; exact absurd h (by simp [Bind.bind, Except.bind])
      | ok tl =>
        rw [h2] at h
        simp only [Bind.bind, Except.bind, Except.ok.injEq, Prod.mk.injEq] at h
        rw [← h.1]
        exact StagedOk_append
          (visitOps_stagedOk env c r hd.1 hd.2 (by rw [h1]))
          (ih tl.1 tl.2 (by rw [h2]))

theorem removeOps_stagedOk (q : Record → Bool) (c : List Record) :
    StagedOk (removeOps q c).1 := by
  induction c with
  | nil => exact StagedOk.nil
  | cons r rest ih =>
    unfold removeOps
    by_cases hq : q r
    · rw [if_pos hq]
      cases hp : r.path with
      | none => exact ih
      | some fv =>
        cases fv with
        | date t => exact ih
        | str s => exact StagedOk.delCons s _ ih
    · rw [if_neg hq]
      exact ih


theorem commit_stage_unique (db : DB) (ops : List Op) (logs : List LogMsg)
    (h0 : db.staged = []) (hu : UniquePaths db.committed) (hs : StagedOk ops) :
    UniquePaths (commit (stage db ops logs)).1.committed ∧
    (commit (stage db ops logs)).1.staged = [] := by
  constructor
  · show UniquePaths (applyOps db.committed (db.staged ++ ops))
    rw [h0, List.nil_append]
    exact applyOps_unique _ _ hu hs
  · rfl

theorem put_result (env1 : Env) (db : DB) (z : Zest) (res : DB × Nat)
    (h : Database.put env1 db z = .ok res) :
    ∃ ops logs, putDocOps env1 db.committed z = .ok (ops, logs) ∧
      StagedOk ops ∧ res.1 = (commit (stage db ops logs)).1 := by
  unfold Database.put at h
  cases hpd : putDocOps env1 db.committed z with
  | error e => rw [hpd] at h; exact absurd h (by simp [Bind.bind, Except.bind])
  | ok pr =>
    rw [hpd] at h
    simp only [Bind.bind, Except.bind, Except.ok.injEq] at h
    obtain ⟨fd, res2, _, _, hops⟩ := putDocOps_shape env1 db.committed z
      pr.1 pr.2 (by rw [hpd])
    refine ⟨pr.1, pr.2, rfl, ?_, by rw [← h]⟩
    rw [hops]
    exact StagedOk.block _ _ _ rfl StagedOk.nil

theorem create_result (env : Env) (db : DB) (res : String × DB × Nat)
    (h : Database.create env db = .ok res) :
    ∃ ops logs, StagedOk ops ∧ res.2.1 = (commit (stage db ops logs)).1 := by
  unfold Database.create at h
  split at h
  · exact absurd h (by simp)
  · dsimp only at h
    split at h
    · exact absurd h (by simp)
    · dsimp only [Bind.bind, Except.bind] at h
      split at h
      · exact absurd h (by simp)
      · rename_i v heq
        obtain ⟨ops, logs, hpd, hsok, hres⟩ := put_result _ db _ v heq
        simp only [Except.ok.injEq] at h
        refine ⟨ops, logs, hsok, ?_⟩
        rw [← h]
        exact hres

theorem runOp_preserves (env : Env) (op : PubOp) (db : DB)
    (h0 : db.staged = []) (hu : UniquePaths db.committed) :
    UniquePaths (runOp env op db).committed ∧
    (runOp env op db).staged = [] := by
  cases op with
  | putOne z =>
    unfold runOp Database.put
    dsimp only [Except.map, Bind.bind, Except.bind]
    cases h : putDocOps env db.committed z with
    | error e => exact ⟨hu, rfl⟩
    | ok pr =>
      dsimp only
      refine commit_stage_unique db pr.1 pr.2 h0 hu ?_
      obtain ⟨fd, res, _, _, hops⟩ := putDocOps_shape env db.committed z
        pr.1 pr.2 (by rw [h])
      rw [hops]
      exact StagedOk.block _ _ _ rfl StagedOk.nil
  | putMany zs =>
    unfold runOp Database.put_multiple
    dsimp only [Except.map, Bind.bind, Except.bind]
    cases h : docsOps env db.committed zs with
    | error e => exact ⟨hu, rfl⟩
    | ok pr =>
      dsimp only
      exact commit_stage_unique db pr.1 pr.2 h0 hu
        (docsOps_stagedOk env db.committed zs pr.1 pr.2 (by rw [h]))
  | discover =>
    unfold runOp Database.new
    dsimp only [Except.map, Bind.bind, Except.bind]
    cases h : checkNewOps env db.committed with
    | error e => exact ⟨hu, rfl⟩
    | ok pr =>
      dsimp only
      exact commit_stage_unique db pr.1 pr.2 h0 hu
        (checkNewOps_stagedOk env db.committed pr.1 pr.2 (by rw [h]))
  | updateAll =>
    unfold runOp Database.update
    dsimp only [Except.map, Bind.bind, Except.bind]
    cases h : checkNewOps env db.committed with
    | error e => exact ⟨hu, rfl⟩
    | ok cn =>
      dsimp only
      cases h2 : visitAll env db.committed db.committed with
      | error e => exact ⟨hu, rfl⟩
      | ok vs =>
        dsimp only
        exact commit_stage_unique db (cn.1 ++ vs.1) (cn.2 ++ vs.2) h0 hu
          (StagedOk_append
            (checkNewOps_stagedOk env db.committed cn.1 cn.2 (by rw [h]))
            (visitAll_stagedOk env db.committed db.committed vs.1 vs.2
              (by rw [h2])))
  | removeBy q =>
    unfold runOp Database.remove
    dsimp only [Except.map]
    exact commit_stage_unique db (removeOps q db.committed).1
      (removeOps q db.committed).2 h0 hu (removeOps_stagedOk q db.committed)
  | createFile =>
    unfold runOp
    dsimp only [Except.map]
    cases hcr : Database.create env db with
    | error e => exact ⟨hu, rfl⟩
    | ok res =>
      dsimp only
      obtain ⟨ops, logs, hsok, hres⟩ := create_result env db res hcr
      rw [hres]
      exact commit_stage_unique db ops logs h0 hu hsok
  | reindexAll =>
    unfold runOp Database.reindex
    dsimp only [Except.map, Bind.bind, Except.bind]
    cases h : searchZests env db (fun _ => true) with
    | error e => exact ⟨hu, rfl⟩
    | ok zs =>
      dsimp only
      cases h2 : docsOps env db.committed zs with
      | error e => exact ⟨hu, rfl⟩
      | ok pr =>
        dsimp only
        exact commit_stage_unique db (.delAll :: pr.1) pr.2 h0 hu
          (StagedOk.delAllCons _
            (docsOps_stagedOk env db.committed zs pr.1 pr.2 (by rw [h2])))

/-- Claim C2: after any sequence of the public mutating operations (put,
put_multiple, new, update, remove, create, reindex) starting from a
committed index with unique canonical paths and an empty pending queue, the
committed index never holds two live records for the same canonical path:
every upsert stages the deletion of the document's canonical path directly
followed by the one new full record, and the pair is applied as one unit at
the single commit that ends each operation. -/
theorem C2_thm (l : List (Env × PubOp)) (db : DB)
    (h0 : db.staged = []) (hu : UniquePaths db.committed) :
    UniquePaths (runSeq l db).committed ∧ (runSeq l db).staged = [] := by
  induction l generalizing db with
  | nil => exact ⟨hu, h0⟩
  | cons p rest ih =>
    obtain ⟨hu', h0'⟩ := runOp_preserves p.1 p.2 db h0 hu
    exact ih (runOp p.1 p.2 db) h0' hu'

/-- Claim C2, witness: the invariant evaluated over a discover, a
full-update and a reindex against a one-file root, from the empty store. -/
theorem C2_thm_witness :
    UniquePaths (runSeq [(envG, .discover), (envG, .updateAll),
      (envG, .reindexAll)] db0).committed ∧
    (runSeq [(envG, .discover), (envG, .updateAll),
      (envG, .reindexAll)] db0).staged = [] :=
  C2_thm _ db0 rfl (fun p => by simp [db0, UniquePaths])

end ZestModel

namespace ZestModel

-- A successful visit of one record implies its path and lastmod fields were
-- present and well-typed.

theorem visitOps_ok_wf (env : Env) (c : List Record) (r : Record)
    (pr : List Op × List LogMsg) (h : visitOps env c r = .ok pr) :
    WFRec r := by
  unfold visitOps at h
  cases hp : r.path with
  | none => rw [hp] at h; exact absurd h (by simp [Bind.bind, Except.bind])
  | some fv =>
    cases fv with
    | date t => rw [hp] at h; exact absurd h (by simp [Bind.bind, Except.bind])
    | str p =>
      rw [hp] at h
      cases hm : r.lastmod with
      | none => rw [hm] at h; exact absurd h (by simp [Bind.bind, Except.bind])
      | some fv2 =>
        cases fv2 with
        | str s =>
          rw [hm] at h; exact absurd h (by simp [Bind.bind, Except.bind])
        | date m => exact ⟨⟨p, hp⟩, ⟨m, hm⟩⟩

theorem visitOps_corrupt (env : Env) (c : List Record) (r : Record)
    (hbad : ¬ WFRec r) :
    ∃ msg, visitOps env c r = .error (.CorruptionError msg) := by
  unfold visitOps
  cases hp : r.path with
  | none => exact ⟨"missing path field", by simp [Bind.bind, Except.bind]⟩
  | some fv =>
    cases fv with
    | date t =>
      exact ⟨"wrong type for path field", by simp [Bind.bind, Except.bind]⟩
    | str p =>
      cases hm : r.lastmod with
      | none =>
        exact ⟨"missing file last_modified", by simp [Bind.bind, Except.bind]⟩
      | some fv2 =>
        cases fv2 with
        | str s =>
          exact ⟨"wrong type for last_modif field",
            by simp [Bind.bind, Except.bind]⟩
        | date m => exact absurd ⟨⟨p, hp⟩, ⟨m, hm⟩⟩ hbad

theorem visitAll_ok_all (env : Env) (c : List Record) (rs : List Record)
    (pr : List Op × List LogMsg) (h : visitAll env c rs = .ok pr) :
    ∀ r ∈ rs, ∃ pr', visitOps env c r = .ok pr' := by
  induction rs generalizing pr with
  | nil => intro r hr; cases hr
  | cons r rest ih =>
    intro x hx
    unfold visitAll at h
    cases h1 : visitOps env c r with
    | error e => rw [h1] at h; exact absurd h (by simp [Bind.bind, Except.bind])
    | ok hd =>
      rw [h1] at h
      cases h2 : visitAll env c rest with
      | error e =>
        rw [h2] at h; exact absurd h (by simp [Bind.bind, Except.bind])
      | ok tl =>
        rcases List.mem_cons.mp hx with he | hm
        · exact ⟨hd, he ▸ h1⟩
        · exact ih tl (by rw [h2]) x hm

theorem visitAll_corrupt (env : Env) (c : List Record) (rs : List Record)
    (hvisit : ∀ r ∈ rs, WFRec r → ∃ pr, visitOps env c r = .ok pr)
    (hbad : ∃ r ∈ rs, ¬ WFRec r) :
    ∃ msg, visitAll env c rs = .error (.CorruptionError msg) := by
  induction rs with
  | nil => obtain ⟨r, hr, _⟩ := hbad; cases hr
  | cons r rest ih =>
    by_cases hwf : WFRec r
    · obtain ⟨pr, hpr⟩ := hvisit r (List.mem_cons_self r rest) hwf
      have hbad' : ∃ r' ∈ rest, ¬ WFRec r' := by
        obtain ⟨r', hr', hb⟩ := hbad
        rcases List.mem_cons.mp hr' with he | hm
        · exact absurd hwf (he ▸ hb)
        · exact ⟨r', hm, hb⟩
      obtain ⟨msg, hmsg⟩ :=
        ih (fun x hx hw => hvisit x (List.mem_cons_of_mem r hx) hw) hbad'
      refine ⟨msg, ?_⟩
      unfold visitAll
      rw [hpr, hmsg]
      rfl
    · obtain ⟨msg, hmsg⟩ := visitOps_corrupt env c r hwf
      refine ⟨msg, ?_⟩
      unfold visitAll
      rw [hmsg]
      rfl

/-- Claim C6: a record visited by full-update that is missing its `path` or
`last-modified` field, or holds a wrong-typed value there, makes the entire
update abort with a `CorruptionError` before its final commit.  First
conjunct: whenever `update` reaches its commit (returns `.ok`), every
visited record was well-formed — a defective record is never silently
skipped.  Second conjunct: when discovery completes and the well-formed
records process normally, a defective record makes `update` return a
`CorruptionError`, so no staged mutation of that pass ever becomes
visible. -/
theorem C6_thm :
    (∀ (env : Env) (db : DB) (x : DB × Nat),
       Database.update env db = .ok x → WFRecords db.committed) ∧
    (∀ (env : Env) (db : DB),
       (∃ cn, checkNewOps env db.committed = .ok cn) →
       (∀ r ∈ db.committed, WFRec r →
          ∃ pr, visitOps env db.committed r = .ok pr) →
       (∃ r ∈ db.committed, ¬ WFRec r) →
       ∃ msg, Database.update env db = .error (.CorruptionError msg)) := by
  constructor
  · intro env db x h
    unfold Database.update at h
    cases h1 : checkNewOps env db.committed with
    | error e => rw [h1] at h; exact absurd h (by simp [Bind.bind, Except.bind])
    | ok cn =>
      rw [h1] at h
      cases h2 : visitAll env db.committed db.committed with
      | error e =>
        rw [h2] at h; exact absurd h (by simp [Bind.bind, Except.bind])
      | ok vs =>
        intro r hr
        obtain ⟨pr', hpr'⟩ :=
          visitAll_ok_all env db.committed db.committed vs h2 r hr
        exact visitOps_ok_wf env db.committed r pr' hpr'
  · intro env db hcn hvisit hbad
    obtain ⟨cn, hcn⟩ := hcn
    obtain ⟨msg, hmsg⟩ := visitAll_corrupt env db.committed db.committed
      hvisit hbad
    refine ⟨msg, ?_⟩
    unfold Database.update
    rw [hcn, hmsg]
    rfl

/-- Claim C6, witness: a store whose single committed record lacks its
last-modified field makes `update` return a `CorruptionError`. -/
theorem C6_thm_witness :
    ∃ msg, Database.update envDel ⟨[rBad], [], 0, []⟩ =
      .error (.CorruptionError msg) :=
  C6_thm.2 envDel ⟨[rBad], [], 0, []⟩ ⟨([], []), rfl⟩
    (by
      intro r hr hwf
      simp only [List.mem_singleton] at hr
      subst hr
      obtain ⟨_, t, ht⟩ := hwf
      exact absurd ht (by simp [rBad]))
    ⟨rBad, by simp, by
      intro hw
      obtain ⟨_, t, ht⟩ := hw
      exact absurd ht (by simp [rBad])⟩

end ZestModel

namespace ZestModel

-- An operation working at one path cannot touch a different path.

theorem opAt_not_touches (op : Op) (q p : String) (ha : opAt op q)
    (hne : q ≠ p) : ¬ OpTouches op p := by
  intro ht
  rcases ha with hd | ⟨doc, hadd, hpath⟩
  · subst hd
    rcases ht with h1 | ⟨r, h2, _⟩ | h3
    · injection h1 with h4; exact hne h4
    · cases h2
    · cases h3
  · subst hadd
    rcases ht with h1 | ⟨r, h2, hp2⟩ | h3
    · cases h1
    · injection h2 with h4
      subst h4
      rw [hpath] at hp2
      injection hp2 with h5
      injection h5 with h6
      exact hne h6
    · cases h3

theorem tracked_true_iff (c : List Record) (p : String) :
    tracked c p = true ↔ ∃ r ∈ c, r.path = some (.str p) := by
  unfold tracked
  rw [List.any_eq_true]
  constructor
  · rintro ⟨r, hr, hp⟩
    exact ⟨r, hr, (pathIs_iff p r).mp hp⟩
  · rintro ⟨r, hr, hp⟩
    exact ⟨r, hr, (pathIs_iff p r).mpr hp⟩

theorem tracked_false_iff (c : List Record) (p : String) :
    tracked c p = false ↔ ∀ r ∈ c, r.path ≠ some (.str p) := by
  constructor
  · intro h r hr hp
    have : tracked c p = true := (tracked_true_iff c p).mpr ⟨r, hr, hp⟩
    rw [h] at this
    cases this
  · intro h
    cases ht : tracked c p
    · rfl
    · obtain ⟨r, hr, hp⟩ := (tracked_true_iff c p).mp ht
      exact absurd hp (h r hr)

theorem from_file_src (tok : String → List MdEvent)
    (ym : String → Option ZestMeta) (src : String)
    (contents : Option (List String)) (z : Zest)
    (h : Zest.from_file tok ym src contents = .ok z) : z.file = src := by
  unfold Zest.from_file at h
  cases contents with
  | none => exact absurd h (by simp)
  | some lines =>
    dsimp only at h
    split at h
    · cases h
    · rename_i m hm
      injection h with h2
      rw [← h2]

theorem parseFile_src (env : Env) (p : String) (z : Zest)
    (h : parseFile env p = .ok z) : z.file = p :=
  from_file_src env.tokenize env.yaml p _ z h

theorem parseFile_fs (env : Env) (p : String) (z : Zest)
    (h : parseFile env p = .ok z) : ∃ fd, env.fs p = some fd := by
  unfold parseFile at h
  cases hfs : env.fs p with
  | none =>
    rw [hfs] at h
    exact absurd h (by simp [Zest.from_file])
  | some fd => exact ⟨fd, rfl⟩

theorem listPaths_go_exists (l : List Record)
    (hwf : ∀ r ∈ l, ∃ p, r.path = some (.str p)) :
    ∃ v, listPaths.go l = .ok v := by
  induction l with
  | nil => exact ⟨[], rfl⟩
  | cons r rs ih =>
    obtain ⟨p, hp⟩ := hwf r (List.mem_cons_self r rs)
    obtain ⟨v, hv⟩ := ih (fun x hx => hwf x (List.mem_cons_of_mem r hx))
    refine ⟨p :: v, ?_⟩
    unfold listPaths.go
    rw [hp, hv]
    rfl

theorem listPaths_exists (env : Env) (c : List Record) (q : String)
    (hwf : ∀ r ∈ c, ∃ p, r.path = some (.str p)) :
    ∃ v, listPaths env c q = .ok v :=
  listPaths_go_exists _ (fun r hr => hwf r (List.mem_of_mem_filter hr))

theorem resolveRefs_exists (env : Env) (c : List Record) (f : String)
    (refs : List String)
    (hwf : ∀ r ∈ c, ∃ p, r.path = some (.str p)) :
    ∃ pr, resolveRefs env c f refs = .ok pr := by
  induction refs with
  | nil => exact ⟨([], []), rfl⟩
  | cons reff rest ih =>
    obtain ⟨v, hv⟩ := listPaths_exists env c reff hwf
    obtain ⟨pr, hpr⟩ := ih
    refine ⟨(v ++ pr.1, v.map (fun m => ⟨.info, f ++ " references " ++ m⟩)
      ++ pr.2), ?_⟩
    unfold resolveRefs
    rw [hv, hpr]
    rfl

theorem putDocOps_exists (env : Env) (c : List Record) (z : Zest)
    (fd : FileData) (hfs : env.fs (env.canon z.file) = some fd)
    (hwf : ∀ r ∈ c, ∃ p, r.path = some (.str p)) :
    ∃ pr, putDocOps env c z = .ok pr := by
  obtain ⟨res, hres⟩ := resolveRefs_exists env c (env.canon z.file) z.refs hwf
  unfold putDocOps
  dsimp only
  rw [hfs]
  dsimp only
  rw [hres]
  exact ⟨_, rfl⟩


theorem docsOps_cons (env : Env) (c : List Record) (z : Zest)
    (zs : List Zest) :
    docsOps env c (z :: zs) = (do
      let hd ← putDocOps env c z
      let tl ← docsOps env c zs
      Except.ok (hd.1 ++ tl.1, hd.2 ++ tl.2)) := rfl

theorem visitAll_cons (env : Env) (c : List Record) (r : Record)
    (rs : List Record) :
    visitAll env c (r :: rs) = (do
      let hd ← visitOps env c r
      let tl ← visitAll env c rs
      Except.ok (hd.1 ++ tl.1, hd.2 ++ tl.2)) := rfl

theorem docsOps_append (env : Env) (c : List Record) (a b : List Zest) :
    docsOps env c (a ++ b) = (do
      let x ← docsOps env c a
      let y ← docsOps env c b
      Except.ok (x.1 ++ y.1, x.2 ++ y.2)) := by
  induction a with
  | nil =>
    cases h : docsOps env c b with
    | error e => simp [docsOps, h, Bind.bind, Except.bind]
    | ok pr => simp [docsOps, h, Bind.bind, Except.bind]
  | cons z rest ih =>
    rw [List.cons_append, docsOps_cons, docsOps_cons, ih]
    cases h1 : putDocOps env c z with
    | error e => simp [Bind.bind, Except.bind]
    | ok hd =>
      cases h2 : docsOps env c rest with
      | error e => simp [Bind.bind, Except.bind, h2]
      | ok tl =>
        cases h3 : docsOps env c b with
        | error e => simp [Bind.bind, Except.bind, h2, h3]
        | ok tl2 => simp [Bind.bind, Except.bind, h2, h3, List.append_assoc]

theorem visitAll_append (env : Env) (c : List Record) (a b : List Record) :
    visitAll env c (a ++ b) = (do
      let x ← visitAll env c a
      let y ← visitAll env c b
      Except.ok (x.1 ++ y.1, x.2 ++ y.2)) := by
  induction a with
  | nil =>
    cases h : visitAll env c b with
    | error e => simp [visitAll, h, Bind.bind, Except.bind]
    | ok pr => simp [visitAll, h, Bind.bind, Except.bind]
  | cons r rest ih =>
    rw [List.cons_append, visitAll_cons, visitAll_cons, ih]
    cases h1 : visitOps env c r with
    | error e => simp [Bind.bind, Except.bind]
    | ok hd =>
      cases h2 : visitAll env c rest with
      | error e => simp [Bind.bind, Except.bind, h2]
      | ok tl =>
        cases h3 : visitAll env c b with
        | error e => simp [Bind.bind, Except.bind, h2, h3]
        | ok tl2 => simp [Bind.bind, Except.bind, h2, h3, List.append_assoc]

theorem cnDocs_cons (env : Env) (c : List Record) (e : String)
    (l : List String) :
    cnDocs env c (e :: l) =
      if tracked c e then cnDocs env c l
      else
        match parseFile env e with
        | .ok z =>
          (z :: (cnDocs env c l).1,
           ⟨.info, e ++ " is not tracked yet, adding it"⟩ ::
             (cnDocs env c l).2)
        | .error _ =>
          ((cnDocs env c l).1,
           ⟨.info, e ++ " is not tracked yet, adding it"⟩ ::
             ⟨.warn, "Could not parse " ++ e⟩ :: (cnDocs env c l).2) := rfl

theorem cnDocs_docs_append (env : Env) (c : List Record) (a b : List String) :
    (cnDocs env c (a ++ b)).1 = (cnDocs env c a).1 ++ (cnDocs env c b).1 := by
  induction a with
  | nil => simp [cnDocs]
  | cons e rest ih =>
    rw [List.cons_append, cnDocs_cons, cnDocs_cons]
    by_cases ht : tracked c e = true
    · rw [if_pos ht, if_pos ht]
      exact ih
    · rw [if_neg ht, if_neg ht]
      cases hp : parseFile env e with
      | ok z => simp [ih]
      | error err => simp [ih]

theorem docsOps_ops_at (env : Env) (c : List Record) (zs : List Zest)
    (pr : List Op × List LogMsg) (h : docsOps env c zs = .ok pr) :
    ∀ op ∈ pr.1, ∃ z ∈ zs, opAt op (env.canon z.file) := by
  induction zs generalizing pr with
  | nil =>
    simp [docsOps] at h
    intro op hop
    rw [← h] at hop
    simp at hop
  | cons z rest ih =>
    unfold docsOps at h
    cases h1 : putDocOps env c z with
    | error e => rw [h1] at h; exact absurd h (by simp [Bind.bind, Except.bind])
    | ok hd =>
      rw [h1] at h
      cases h2 : docsOps env c rest with
      | error e => rw [h2] at h; exact absurd h (by simp [Bind.bind, Except.bind])
      | ok tl =>
        rw [h2] at h
        simp only [Bind.bind, Except.bind, Except.ok.injEq] at h
        intro op hop
        rw [← h] at hop
        rcases List.mem_append.mp hop with h3 | h3
        · obtain ⟨fd, res, _, _, hops⟩ := putDocOps_shape env c z hd.1 hd.2
            (by rw [h1])
          rw [hops] at h3
          rcases List.mem_cons.mp h3 with h4 | h4
          · exact ⟨z, List.mem_cons_self z rest, Or.inl h4⟩
          · rcases List.mem_cons.mp h4 with h5 | h5
            · exact ⟨z, List.mem_cons_self z rest, Or.inr ⟨_, h5, rfl⟩⟩
            · cases h5
        · obtain ⟨z', hz', ha⟩ := ih tl (by rw [h2]) op h3
          exact ⟨z', List.mem_cons_of_mem z hz', ha⟩

theorem cnDocs_mem (env : Env) (c : List Record) (ws : List String)
    (z : Zest) (hz : z ∈ (cnDocs env c ws).1) :
    ∃ e ∈ ws, tracked c e = false ∧ parseFile env e = .ok z := by
  induction ws with
  | nil => cases hz
  | cons e rest ih =>
    rw [cnDocs_cons] at hz
    by_cases ht : tracked c e = true
    · rw [if_pos ht] at hz
      obtain ⟨e', he', h1, h2⟩ := ih hz
      exact ⟨e', List.mem_cons_of_mem e he', h1, h2⟩
    · rw [if_neg ht] at hz
      have hb : tracked c e = false := by
        cases hbb : tracked c e
        · rfl
        · exact absurd hbb ht
      cases hp : parseFile env e with
      | ok z' =>
        rw [hp] at hz
        rcases List.mem_cons.mp hz with heq | hm
        · exact ⟨e, List.mem_cons_self e rest, hb, heq ▸ hp⟩
        · obtain ⟨e', he', h1, h2⟩ := ih hm
          exact ⟨e', List.mem_cons_of_mem e he', h1, h2⟩
      | error err =>
        rw [hp] at hz
        obtain ⟨e', he', h1, h2⟩ := ih hz
        exact ⟨e', List.mem_cons_of_mem e he', h1, h2⟩

theorem cnDocs_nil_of (env : Env) (c : List Record) (ws : List String)
    (h : ∀ e ∈ ws, tracked c e = true ∨ ∃ err, parseFile env e = .error err) :
    (cnDocs env c ws).1 = [] := by
  induction ws with
  | nil => rfl
  | cons e rest ih =>
    rw [cnDocs_cons]
    have hrest := ih (fun x hx => h x (List.mem_cons_of_mem e hx))
    rcases h e (List.mem_cons_self e rest) with ht | ⟨err, hp⟩
    · rw [if_pos ht]
      exact hrest
    · by_cases ht : tracked c e = true
      · rw [if_pos ht]; exact hrest
      · rw [if_neg ht, hp]
        exact hrest

end ZestModel

namespace ZestModel

-- A path is tracked exactly when the committed set filtered at that path is
-- nonempty.

theorem tracked_filter (c : List Record) (p : String) :
    tracked c p = true ↔ c.filter (pathIs p) ≠ [] := by
  rw [tracked_true_iff]
  constructor
  · rintro ⟨r, hr, hp⟩ hnil
    have hpt : pathIs p r = true := (pathIs_iff p r).mpr hp
    have hmem : r ∈ c.filter (pathIs p) := List.mem_filter.mpr ⟨hr, hpt⟩
    rw [hnil] at hmem
    cases hmem
  · intro hnil
    cases hf : c.filter (pathIs p) with
    | nil => exact absurd hf hnil
    | cons r rest =>
      have hmem : r ∈ c.filter (pathIs p) := by
        rw [hf]; exact List.mem_cons_self r rest
      obtain ⟨hr, hp⟩ := List.mem_filter.mp hmem
      exact ⟨r, hr, (pathIs_iff p r).mp hp⟩

theorem filter_after_block (c : List Record) (o1 o2 : List Op) (e : String)
    (doc : Record) (hrec : doc.path = some (.str e))
    (h1 : ∀ op ∈ o1, ¬ OpTouches op e) (h2 : ∀ op ∈ o2, ¬ OpTouches op e) :
    (applyOps c (o1 ++ ([.del e, .add doc] ++ o2))).filter (pathIs e) =
      [doc] := by
  rw [applyOps_append, applyOps_append]
  rw [applyOps_untouched _ o2 e h2]
  rw [show applyOps (applyOps c o1) [Op.del e, Op.add doc] =
      applyOp (applyOp (applyOps c o1) (.del e)) (.add doc) from rfl]
  rw [filter_add, filter_del_self]
  have hpt : pathIs e doc = true := (pathIs_iff e doc).mpr hrec
  simp [hpt]

theorem checkNew_ops_at (env : Env) (c : List Record)
    (pr : List Op × List LogMsg) (h : checkNewOps env c = .ok pr)
    (hcw : ∀ p ∈ env.walkFiles, env.canon p = p) :
    ∀ op ∈ pr.1, ∃ e ∈ env.walkFiles, tracked c e = false ∧ opAt op e := by
  unfold checkNewOps at h
  dsimp only at h
  cases hd : docsOps env c (cnDocs env c env.walkFiles).1 with
  | error e => rw [hd] at h; exact absurd h (by simp [Bind.bind, Except.bind])
  | ok dpr =>
    rw [hd] at h
    simp only [Bind.bind, Except.bind, Except.ok.injEq] at h
    intro op hop
    rw [← h] at hop
    obtain ⟨z, hz, ha⟩ := docsOps_ops_at env c _ dpr hd op hop
    obtain ⟨e, he, htr, hpf⟩ := cnDocs_mem env c env.walkFiles z hz
    have hsrc : z.file = e := parseFile_src env e z hpf
    refine ⟨e, he, htr, ?_⟩
    rw [hsrc, hcw e he] at ha
    exact ha

theorem new_result (env : Env) (db db1 : DB) (n1 : Nat)
    (h : Database.new env db = .ok (db1, n1)) :
    ∃ pr, checkNewOps env db.committed = .ok pr ∧
      db1 = (commit (stage db pr.1 pr.2)).1 ∧ n1 = db.stamp + 1 := by
  unfold Database.new at h
  cases hck : checkNewOps env db.committed with
  | error e => rw [hck] at h; exact absurd h (by simp [Bind.bind, Except.bind])
  | ok pr =>
    rw [hck] at h
    simp only [Bind.bind, Except.bind, Except.ok.injEq] at h
    exact ⟨pr, rfl, by rw [h], (congrArg Prod.snd h).symm⟩

theorem new_tracks (env : Env) (db db1 : DB) (n1 : Nat)
    (h0 : db.staged = [])
    (hcw : ∀ p ∈ env.walkFiles, env.canon p = p)
    (hnd : env.walkFiles.Nodup)
    (h1 : Database.new env db = .ok (db1, n1)) :
    ∀ e ∈ env.walkFiles, tracked db1.committed e = true ∨
      ∃ err, parseFile env e = .error err := by
  obtain ⟨pr, hck, hdb1, _⟩ := new_result env db db1 n1 h1
  have hcommitted : db1.committed = applyOps db.committed pr.1 := by
    rw [hdb1]
    show applyOps db.committed (db.staged ++ pr.1) = _
    rw [h0, List.nil_append]
  intro e he
  cases hpe : parseFile env e with
  | error err => exact Or.inr ⟨err, rfl⟩
  | ok z =>
    left
    cases htr : tracked db.committed e with
    | true =>
      have hunt : ∀ op ∈ pr.1, ¬ OpTouches op e := by
        intro op hop
        obtain ⟨e', he', htr', ha'⟩ := checkNew_ops_at env db.committed pr
          hck hcw op hop
        refine opAt_not_touches op e' e ha' (fun heq => ?_)
        rw [heq] at htr'
        rw [htr] at htr'
        cases htr'
      rw [tracked_filter] at htr ⊢
      rw [hcommitted, applyOps_untouched db.committed pr.1 e hunt]
      exact htr
    | false =>
      obtain ⟨w1, w2, hsplit⟩ := List.append_of_mem he
      have hnd' : env.walkFiles.Nodup := hnd
      rw [hsplit] at hnd'
      have hnmem : e ∉ w1 ++ w2 := List.Nodup.not_mem (List.nodup_middle.mp hnd')
      have hnm1 : e ∉ w1 := fun hm => hnmem (List.mem_append.mpr (Or.inl hm))
      have hnm2 : e ∉ w2 := fun hm => hnmem (List.mem_append.mpr (Or.inr hm))
      unfold checkNewOps at hck
      dsimp only at hck
      cases hd : docsOps env db.committed
          (cnDocs env db.committed env.walkFiles).1 with
      | error err =>
        rw [hd] at hck; exact absurd hck (by simp [Bind.bind, Except.bind])
      | ok dpr =>
        rw [hd] at hck
        simp only [Bind.bind, Except.bind, Except.ok.injEq] at hck
        have hdocs : (cnDocs env db.committed env.walkFiles).1 =
            (cnDocs env db.committed w1).1 ++
            (z :: (cnDocs env db.committed w2).1) := by
          rw [hsplit, cnDocs_docs_append, cnDocs_cons, if_neg (by rw [htr]; simp),
            hpe]
        rw [hdocs, docsOps_append] at hd
        cases hda : docsOps env db.committed (cnDocs env db.committed w1).1 with
        | error err =>
          rw [hda] at hd; exact absurd hd (by simp [Bind.bind, Except.bind])
        | ok o1 =>
          rw [hda, docsOps_cons] at hd
          cases hdz : putDocOps env db.committed z with
          | error err =>
            rw [hdz] at hd; exact absurd hd (by simp [Bind.bind, Except.bind])
          | ok oz =>
            rw [hdz] at hd
            cases hdb : docsOps env db.committed
                (cnDocs env db.committed w2).1 with
            | error err =>
              rw [hdb] at hd; exact absurd hd (by simp [Bind.bind, Except.bind])
            | ok o2 =>
              rw [hdb] at hd
              simp only [Bind.bind, Except.bind, Except.ok.injEq] at hd
              obtain ⟨fd, res, _, _, hops⟩ := putDocOps_shape env db.committed z
                oz.1 oz.2 (by rw [hdz])
              have hce : env.canon z.file = e := by
                rw [parseFile_src env e z hpe]
                exact hcw e he
              rw [hce] at hops
              have huntouched : ∀ (oX : List Op × List LogMsg)
                  (wX : List String), (∀ x ∈ wX, x ∈ env.walkFiles) →
                  e ∉ wX →
                  docsOps env db.committed (cnDocs env db.committed wX).1 =
                    .ok oX →
                  ∀ op ∈ oX.1, ¬ OpTouches op e := by
                intro oX wX hsub hnm hdX op hop
                obtain ⟨z', hz', ha'⟩ := docsOps_ops_at env db.committed _ oX
                  hdX op hop
                obtain ⟨e', he', _, hpf'⟩ := cnDocs_mem env db.committed wX
                  z' hz'
                have hce' : env.canon z'.file = e' := by
                  rw [parseFile_src env e' z' hpf']
                  exact hcw e' (hsub e' he')
                rw [hce'] at ha'
                exact opAt_not_touches op e' e ha' (fun heq => hnm (heq ▸ he'))
              have hsub1 : ∀ x ∈ w1, x ∈ env.walkFiles := by
                intro x hx
                rw [hsplit]
                exact List.mem_append.mpr (Or.inl hx)
              have hsub2 : ∀ x ∈ w2, x ∈ env.walkFiles := by
                intro x hx
                rw [hsplit]
                exact List.mem_cons_of_mem e hx |> fun hh =>
                  List.mem_append.mpr (Or.inr hh)
              have hpr1 : pr.1 = o1.1 ++ ([.del e, .add
                  { path := some (.str e)
                    lastmod := fd.mtime.map .date
                    title := z.title
                    file := e
                    content := z.content
                    tags := z.metadata.tags
                    reff := res.1
                    lang := z.codeblocks.filterMap (fun cb => cb.language)
                    code := z.codeblocks.filterMap (fun cb => cb.code) }] ++
                  o2.1) := by
                have hdpr1 : dpr.1 = o1.1 ++ (oz.1 ++ o2.1) :=
                  (congrArg Prod.fst hd).symm
                have hpr1' : pr.1 = dpr.1 := (congrArg Prod.fst hck).symm
                rw [hpr1', hdpr1, hops]
              rw [tracked_filter, hcommitted, hpr1]
              rw [filter_after_block db.committed o1.1 o2.1 e _ rfl
                (huntouched o1 w1 hsub1 hnm1 hda)
                (huntouched o2 w2 hsub2 hnm2 hdb)]
              simp

/-- Claim C5 (corrected): a second discover-new run with no filesystem
change stages zero additional mutations — its discovery loop collects no
document, its staged operation list is empty, and the commit leaves the
committed index unchanged.  (The claim's stronger explanation, that every
enumerated file is already matched by the exact path lookup so nothing is
even parsed, fails for unparseable files; see the counterexample.) -/
theorem C5_thm (env : Env) (db db1 : DB) (n1 : Nat)
    (h0 : db.staged = [])
    (hcw : ∀ p ∈ env.walkFiles, env.canon p = p)
    (hnd : env.walkFiles.Nodup)
    (h1 : Database.new env db = .ok (db1, n1)) :
    (cnDocs env db1.committed env.walkFiles).1 = [] ∧
    ∃ logs2, checkNewOps env db1.committed = .ok ([], logs2) ∧
      ∃ db2, Database.new env db1 = .ok (db2, db1.stamp + 1) ∧
        db2.committed = db1.committed := by
  have htrk := new_tracks env db db1 n1 h0 hcw hnd h1
  have hnil : (cnDocs env db1.committed env.walkFiles).1 = [] :=
    cnDocs_nil_of env db1.committed env.walkFiles htrk
  refine ⟨hnil, (cnDocs env db1.committed env.walkFiles).2, ?_, ?_⟩
  · unfold checkNewOps
    dsimp only
    rw [hnil]
    simp [docsOps, Bind.bind, Except.bind]
  · obtain ⟨pr, hck, hdb1, _⟩ := new_result env db db1 n1 h1
    have hstaged : db1.staged = [] := by rw [hdb1]; rfl
    refine ⟨(commit (stage db1 []
      (cnDocs env db1.committed env.walkFiles).2)).1, ?_, ?_⟩
    · unfold Database.new
      rw [show checkNewOps env db1.committed =
          .ok ([], (cnDocs env db1.committed env.walkFiles).2) from by
        unfold checkNewOps
        dsimp only
        rw [hnil]
        simp [docsOps, Bind.bind, Except.bind]]
      rfl
    · show applyOps db1.committed (db1.staged ++ []) = db1.committed
      rw [hstaged]
      rfl


/-- Claim C5, counterexample to the claim as stated: with one configured
root holding a single file with malformed front matter, the first
discover-new run commits nothing for it, so after that run the file is
enumerated but *not* matched by the exact path lookup, and the second run's
discovery loop parses it again (logging the parse-failure warning again) —
while still staging zero mutations. -/
theorem C5_cex :
    Database.new envC5 db0 = .ok
      (⟨[], [], 1, [⟨.info, "/r/bad.md is not tracked yet, adding it"⟩,
        ⟨.warn, "Could not parse /r/bad.md"⟩]⟩, 1) ∧
    "/r/bad.md" ∈ envC5.walkFiles ∧
    tracked ([] : List Record) "/r/bad.md" = false ∧
    (cnDocs envC5 [] envC5.walkFiles).2.contains
      ⟨.warn, "Could not parse /r/bad.md"⟩ = true :=
  ⟨rfl, by decide, rfl, rfl⟩

/-- Claim C5, witness: the corrected statement evaluated over a root with
one well-formed file, after a first discovery run from the empty store. -/
theorem C5_thm_witness :
    (cnDocs envG db1G.committed envG.walkFiles).1 = [] ∧
    ∃ logs2, checkNewOps envG db1G.committed = .ok ([], logs2) ∧
      ∃ db2, Database.new envG db1G = .ok (db2, db1G.stamp + 1) ∧
        db2.committed = db1G.committed :=
  C5_thm envG db0 db1G 1 rfl (by decide) (by decide) rfl

end ZestModel

namespace ZestModel

-- Computation lemmas for the four branches of the full-update visit of one
-- record: source file gone, unchanged mtime, newer mtime with failing
-- parse, and newer mtime with successful re-parse.

theorem visitOps_del (env : Env) (c : List Record) (r : Record) (p : String)
    (m : Int) (hp : r.path = some (.str p)) (hm : r.lastmod = some (.date m))
    (hfs : env.fs p = none) :
    visitOps env c r = .ok ([.del p], []) := by
  unfold visitOps
  rw [hp, hm]
  dsimp only [Bind.bind, Except.bind]
  rw [hfs]

theorem visitOps_skip (env : Env) (c : List Record) (r : Record) (p : String)
    (m : Int) (fd : FileData) (t : Int)
    (hp : r.path = some (.str p)) (hm : r.lastmod = some (.date m))
    (hfs : env.fs p = some fd) (hmt : fd.mtime = some t) (hlt : ¬ m < t) :
    visitOps env c r = .ok ([], [⟨.trace, "No change detected for " ++ p⟩]) := by
  unfold visitOps
  rw [hp, hm]
  dsimp only [Bind.bind, Except.bind]
  rw [hfs]
  dsimp only
  rw [hmt]
  dsimp only
  rw [if_neg hlt]

theorem visitOps_parsefail (env : Env) (c : List Record) (r : Record)
    (p : String) (m : Int) (fd : FileData) (t : Int) (err : ZestParsingError)
    (hp : r.path = some (.str p)) (hm : r.lastmod = some (.date m))
    (hfs : env.fs p = some fd) (hmt : fd.mtime = some t) (hlt : m < t)
    (hpf : parseFile env p = .error err) :
    visitOps env c r = .ok ([], [⟨.warn, "Could not update " ++ p⟩]) := by
  unfold visitOps
  rw [hp, hm]
  dsimp only [Bind.bind, Except.bind]
  rw [hfs]
  dsimp only
  rw [hmt]
  dsimp only
  rw [if_pos hlt, hpf]

theorem visitOps_reparse (env : Env) (c : List Record) (r : Record)
    (p : String) (m : Int) (fd : FileData) (t : Int) (z : Zest)
    (pr : List Op × List LogMsg)
    (hp : r.path = some (.str p)) (hm : r.lastmod = some (.date m))
    (hfs : env.fs p = some fd) (hmt : fd.mtime = some t) (hlt : m < t)
    (hpf : parseFile env p = .ok z) (hpd : putDocOps env c z = .ok pr) :
    visitOps env c r = .ok (pr.1, ⟨.debug, p ++ " has changed"⟩ :: pr.2) := by
  unfold visitOps
  rw [hp, hm]
  dsimp only [Bind.bind, Except.bind]
  rw [hfs]
  dsimp only
  rw [hmt]
  dsimp only
  rw [if_pos hlt, hpf]
  dsimp only
  rw [hpd]

theorem visitOps_exists (env : Env) (c : List Record) (r : Record)
    (hwf : WFRec r)
    (hcs : ∀ p, r.path = some (.str p) → env.canon p = p)
    (hmt : ∀ p fd, env.fs p = some fd → fd.mtime ≠ none)
    (hwfp : ∀ r' ∈ c, ∃ p, r'.path = some (.str p)) :
    ∃ pr, visitOps env c r = .ok pr := by
  obtain ⟨⟨p, hp⟩, ⟨m, hm⟩⟩ := hwf
  cases hfs : env.fs p with
  | none => exact ⟨_, visitOps_del env c r p m hp hm hfs⟩
  | some fd =>
    cases hmtv : fd.mtime with
    | none => exact absurd hmtv (hmt p fd hfs)
    | some t =>
      by_cases hlt : m < t
      · cases hpf : parseFile env p with
        | error err =>
          exact ⟨_, visitOps_parsefail env c r p m fd t err hp hm hfs hmtv
            hlt hpf⟩
        | ok z =>
          have hzf : z.file = p := parseFile_src env p z hpf
          have hfs2 : env.fs (env.canon z.file) = some fd := by
            rw [hzf, hcs p hp]
            exact hfs
          obtain ⟨pr, hpd⟩ := putDocOps_exists env c z fd hfs2 hwfp
          exact ⟨_, visitOps_reparse env c r p m fd t z pr hp hm hfs hmtv
            hlt hpf hpd⟩
      · exact ⟨_, visitOps_skip env c r p m fd t hp hm hfs hmtv hlt⟩

theorem visitAll_exists (env : Env) (c : List Record) (rs : List Record)
    (h : ∀ r ∈ rs, ∃ pr, visitOps env c r = .ok pr) :
    ∃ pr, visitAll env c rs = .ok pr := by
  induction rs with
  | nil => exact ⟨([], []), rfl⟩
  | cons r rest ih =>
    obtain ⟨hd, hhd⟩ := h r (List.mem_cons_self r rest)
    obtain ⟨tl, htl⟩ := ih (fun x hx => h x (List.mem_cons_of_mem r hx))
    refine ⟨(hd.1 ++ tl.1, hd.2 ++ tl.2), ?_⟩
    rw [visitAll_cons, hhd]
    dsimp only [Bind.bind, Except.bind]
    rw [htl]

theorem visitOps_at (env : Env) (c : List Record) (r : Record) (p : String)
    (pr : List Op × List LogMsg)
    (hp : r.path = some (.str p)) (hcp : env.canon p = p)
    (h : visitOps env c r = .ok pr) :
    ∀ op ∈ pr.1, opAt op p := by
  unfold visitOps at h
  rw [hp] at h
  cases hm : r.lastmod with
  | none => rw [hm] at h; exact absurd h (by simp [Bind.bind, Except.bind])
  | some fv =>
    cases fv with
    | str s => rw [hm] at h; exact absurd h (by simp [Bind.bind, Except.bind])
    | date m =>
      rw [hm] at h
      dsimp only [Bind.bind, Except.bind] at h
      cases hfs : env.fs p with
      | none =>
        rw [hfs] at h
        simp only [Except.ok.injEq] at h
        intro op hop
        rw [← h] at hop
        simp only [List.mem_singleton] at hop
        exact Or.inl hop
      | some fd =>
        rw [hfs] at h
        dsimp only at h
        cases hmtv : fd.mtime with
        | none => rw [hmtv] at h; exact absurd h (by simp)
        | some t =>
          rw [hmtv] at h
          dsimp only at h
          by_cases hlt : m < t
          · rw [if_pos hlt] at h
            cases hpf : parseFile env p with
            | error err =>
              rw [hpf] at h
              simp only [Except.ok.injEq] at h
              intro op hop
              rw [← h] at hop
              cases hop
            | ok z =>
              rw [hpf] at h
              dsimp only at h
              cases hpd : putDocOps env c z with
              | error err => rw [hpd] at h; exact absurd h (by simp)
              | ok pz =>
                rw [hpd] at h
                simp only [Except.ok.injEq] at h
                obtain ⟨fd2, res2, _, _, hops⟩ := putDocOps_shape env c z
                  pz.1 pz.2 (by rw [hpd])
                have hce : env.canon z.file = p := by
                  rw [parseFile_src env p z hpf]
                  exact hcp
                rw [hce] at hops
                intro op hop
                rw [← h] at hop
                dsimp only at hop
                rw [hops] at hop
                rcases List.mem_cons.mp hop with h4 | h4
                · exact Or.inl h4
                · rcases List.mem_cons.mp h4 with h5 | h5
                  · exact Or.inr ⟨_, h5, rfl⟩
                  · cases h5
          · rw [if_neg hlt] at h
            simp only [Except.ok.injEq] at h
            intro op hop
            rw [← h] at hop
            cases hop


theorem visitOps_reparse_err (env : Env) (c : List Record) (r : Record)
    (p : String) (m : Int) (fd : FileData) (t : Int) (z : Zest)
    (err : DatabaseError)
    (hp : r.path = some (.str p)) (hm : r.lastmod = some (.date m))
    (hfs : env.fs p = some fd) (hmt : fd.mtime = some t) (hlt : m < t)
    (hpf : parseFile env p = .ok z) (hpd : putDocOps env c z = .error err) :
    visitOps env c r = .error err := by
  unfold visitOps
  rw [hp, hm]
  dsimp only [Bind.bind, Except.bind]
  rw [hfs]
  dsimp only
  rw [hmt]
  dsimp only
  rw [if_pos hlt, hpf]
  dsimp only
  rw [hpd]

theorem docsOps_exists (env : Env) (c : List Record) (zs : List Zest)
    (hz : ∀ z ∈ zs, ∃ fd, env.fs (env.canon z.file) = some fd)
    (hwfp : ∀ r ∈ c, ∃ p, r.path = some (.str p)) :
    ∃ pr, docsOps env c zs = .ok pr := by
  induction zs with
  | nil => exact ⟨([], []), rfl⟩
  | cons z rest ih =>
    obtain ⟨fd, hfd⟩ := hz z (List.mem_cons_self z rest)
    obtain ⟨hd, hhd⟩ := putDocOps_exists env c z fd hfd hwfp
    obtain ⟨tl, htl⟩ := ih (fun x hx => hz x (List.mem_cons_of_mem z hx))
    refine ⟨(hd.1 ++ tl.1, hd.2 ++ tl.2), ?_⟩
    rw [docsOps_cons, hhd]
    dsimp only [Bind.bind, Except.bind]
    rw [htl]

theorem checkNewOps_exists (env : Env) (c : List Record)
    (hcw : ∀ p ∈ env.walkFiles, env.canon p = p)
    (hwfp : ∀ r ∈ c, ∃ p, r.path = some (.str p)) :
    ∃ pr, checkNewOps env c = .ok pr := by
  obtain ⟨dpr, hd⟩ := docsOps_exists env c (cnDocs env c env.walkFiles).1
    (fun z hz => by
      obtain ⟨e, he, _, hpf⟩ := cnDocs_mem env c env.walkFiles z hz
      obtain ⟨fd, hfd⟩ := parseFile_fs env e z hpf
      exact ⟨fd, by rw [parseFile_src env e z hpf, hcw e he]; exact hfd⟩)
    hwfp
  refine ⟨(dpr.1, (cnDocs env c env.walkFiles).2 ++ dpr.2), ?_⟩
  unfold checkNewOps
  dsimp only
  rw [hd]
  rfl

theorem visitAll_ops_at (env : Env) (c : List Record) (rs : List Record)
    (pr : List Op × List LogMsg) (h : visitAll env c rs = .ok pr)
    (hcs : ∀ r ∈ rs, ∀ p, r.path = some (.str p) → env.canon p = p) :
    ∀ op ∈ pr.1, ∃ r' ∈ rs, ∃ p', r'.path = some (.str p') ∧ opAt op p' := by
  induction rs generalizing pr with
  | nil =>
    simp [visitAll] at h
    intro op hop
    rw [← h] at hop
    simp at hop
  | cons r rest ih =>
    rw [visitAll_cons] at h
    cases h1 : visitOps env c r with
    | error e => rw [h1] at h; exact absurd h (by simp [Bind.bind, Except.bind])
    | ok hd =>
      rw [h1] at h
      dsimp only [Bind.bind, Except.bind] at h
      cases h2 : visitAll env c rest with
      | error e => rw [h2] at h; exact absurd h (by simp)
      | ok tl =>
        rw [h2] at h
        simp only [Except.ok.injEq] at h
        intro op hop
        rw [← h] at hop
        rcases List.mem_append.mp hop with h3 | h3
        · obtain ⟨⟨p, hp⟩, _⟩ := visitOps_ok_wf env c r hd h1
          have := visitOps_at env c r p hd hp
            (hcs r (List.mem_cons_self r rest) p hp) h1 op h3
          exact ⟨r, List.mem_cons_self r rest, p, hp, this⟩
        · obtain ⟨r', hr', p', hp', ha'⟩ := ih tl h2 (fun x hx q hq =>
            hcs x (List.mem_cons_of_mem r hx) q hq) op h3
          exact ⟨r', List.mem_cons_of_mem r hr', p', hp', ha'⟩

theorem unique_split (rs1 rs2 : List Record) (r : Record) (p : String)
    (hu : UniquePaths (rs1 ++ r :: rs2)) (hp : r.path = some (.str p)) :
    (∀ r' ∈ rs1, r'.path ≠ some (.str p)) ∧
    (∀ r' ∈ rs2, r'.path ≠ some (.str p)) := by
  have hlen := hu p
  rw [List.filter_append, List.filter_cons_of_pos ((pathIs_iff p r).mpr hp)]
    at hlen
  rw [List.length_append, List.length_cons] at hlen
  have h1 : (rs1.filter (pathIs p)).length = 0 := by omega
  have h2 : (rs2.filter (pathIs p)).length = 0 := by omega
  rw [List.length_eq_zero] at h1 h2
  constructor
  · intro r' hr' hpath
    have := List.filter_eq_nil_iff.mp h1 r' hr'
    rw [pathIs_iff] at this
    exact this hpath
  · intro r' hr' hpath
    have := List.filter_eq_nil_iff.mp h2 r' hr'
    rw [pathIs_iff] at this
    exact this hpath

theorem filter_after_del (c : List Record) (o1 o2 : List Op) (e : String)
    (h2 : ∀ op ∈ o2, ¬ OpTouches op e) :
    (applyOps c (o1 ++ ([.del e] ++ o2))).filter (pathIs e) = [] := by
  rw [applyOps_append, applyOps_append, applyOps_untouched _ o2 e h2]
  exact filter_del_self _ e

theorem update_eq (env : Env) (db : DB) (cn vs : List Op × List LogMsg)
    (hck : checkNewOps env db.committed = .ok cn)
    (hva : visitAll env db.committed db.committed = .ok vs) :
    Database.update env db =
      .ok (commit (stage db (cn.1 ++ vs.1) (cn.2 ++ vs.2))) := by
  unfold Database.update
  rw [hck]
  dsimp only [Bind.bind, Except.bind]
  rw [hva]


/-- Claim C1: one pass of full-update, over a well-formed store whose paths
are canonical, treats every committed record as the claim states — if its
source file is gone the pass removes the record (the staged deletion becomes
visible); if the file's mtime is strictly newer the file is re-parsed and the
record replaced wholesale by the freshly parsed document (and the old record
is gone), while a parse failure leaves the stale record untouched; with no
newer mtime the record is left unchanged; and the whole pass performs exactly
one commit at its end (the pending queue is empty afterwards and the sequence
number advanced exactly once), making all staged mutations visible at
once. -/
theorem C1_thm (env : Env) (db : DB)
    (h0 : db.staged = [])
    (hu : UniquePaths db.committed)
    (hwf : WFRecords db.committed)
    (hcw : ∀ p ∈ env.walkFiles, env.canon p = p)
    (hcs : ∀ r ∈ db.committed, ∀ p, r.path = some (.str p) →
       env.canon p = p)
    (hmto : ∀ p fd, env.fs p = some fd → fd.mtime ≠ none) :
    ∃ db', Database.update env db = .ok (db', db.stamp + 1) ∧
      db'.staged = [] ∧ db'.stamp = db.stamp + 1 ∧
      ∀ r ∈ db.committed, ∀ p m,
        r.path = some (.str p) → r.lastmod = some (.date m) →
        ((env.fs p = none → db'.committed.filter (pathIs p) = []) ∧
         (∀ fd, env.fs p = some fd → ∀ t, fd.mtime = some t →
           ((m < t →
              (∀ z, parseFile env p = .ok z →
                 (∃ doc, db'.committed.filter (pathIs p) = [doc] ∧
                    doc.path = some (.str p) ∧
                    doc.lastmod = some (.date t) ∧
                    doc.title = z.title ∧ doc.content = z.content ∧
                    doc.tags = z.metadata.tags) ∧
                 r ∉ db'.committed) ∧
              (∀ err, parseFile env p = .error err → r ∈ db'.committed)) ∧
            (¬ m < t → r ∈ db'.committed)))) := by
  have hwfp : ∀ r ∈ db.committed, ∃ q, r.path = some (.str q) :=
    fun r hr => (hwf r hr).1
  obtain ⟨cn, hck⟩ := checkNewOps_exists env db.committed hcw hwfp
  have hvisex : ∀ r ∈ db.committed, ∃ pr,
      visitOps env db.committed r = .ok pr :=
    fun r hr => visitOps_exists env db.committed r (hwf r hr)
      (hcs r hr) hmto hwfp
  obtain ⟨vs, hva⟩ := visitAll_exists env db.committed db.committed hvisex
  refine ⟨(commit (stage db (cn.1 ++ vs.1) (cn.2 ++ vs.2))).1,
    update_eq env db cn vs hck hva, rfl, rfl, ?_⟩
  have hcom : (commit (stage db (cn.1 ++ vs.1) (cn.2 ++ vs.2))).1.committed =
      applyOps db.committed (cn.1 ++ vs.1) := by
    show applyOps db.committed (db.staged ++ (cn.1 ++ vs.1)) = _
    rw [h0, List.nil_append]
  intro r hr p m hp hm
  obtain ⟨rs1, rs2, hsplit⟩ := List.append_of_mem hr
  have htrp : tracked db.committed p = true :=
    (tracked_true_iff _ p).mpr ⟨r, hr, hp⟩
  have hcnunt : ∀ op ∈ cn.1, ¬ OpTouches op p := by
    intro op hop
    obtain ⟨e', he', htr', ha'⟩ := checkNew_ops_at env db.committed cn hck
      hcw op hop
    refine opAt_not_touches op e' p ha' (fun heq => ?_)
    rw [heq, htrp] at htr'
    cases htr'
  obtain ⟨hn1, hn2⟩ := unique_split rs1 rs2 r p (hsplit ▸ hu) hp
  have hva' : visitAll env db.committed (rs1 ++ r :: rs2) = .ok vs := by
    rw [← hsplit]; exact hva
  rw [visitAll_append] at hva'
  cases hv1 : visitAll env db.committed rs1 with
  | error e =>
    rw [hv1] at hva'; exact absurd hva' (by simp [Bind.bind, Except.bind])
  | ok o1 =>
    rw [hv1] at hva'
    dsimp only [Bind.bind, Except.bind] at hva'
    rw [visitAll_cons] at hva'
    cases hvr : visitOps env db.committed r with
    | error e =>
      rw [hvr] at hva'; exact absurd hva' (by simp [Bind.bind, Except.bind])
    | ok orr =>
      rw [hvr] at hva'
      dsimp only [Bind.bind, Except.bind] at hva'
      cases hv2 : visitAll env db.committed rs2 with
      | error e =>
        rw [hv2] at hva'; exact absurd hva' (by simp)
      | ok o2 =>
        rw [hv2] at hva'
        simp only [Except.ok.injEq] at hva'
        have hvs1 : vs.1 = o1.1 ++ (orr.1 ++ o2.1) :=
          (congrArg Prod.fst hva').symm
        have hmem1 : ∀ x ∈ rs1, x ∈ db.committed := by
          intro x hx; rw [hsplit]; exact List.mem_append.mpr (Or.inl hx)
        have hmem2 : ∀ x ∈ rs2, x ∈ db.committed := by
          intro x hx
          rw [hsplit]
          exact List.mem_append.mpr (Or.inr (List.mem_cons_of_mem r hx))
        have ho1unt : ∀ op ∈ o1.1, ¬ OpTouches op p := by
          intro op hop
          obtain ⟨r', hr', p', hp', ha'⟩ := visitAll_ops_at env db.committed
            rs1 o1 hv1 (fun x hx q hq => hcs x (hmem1 x hx) q hq) op hop
          refine opAt_not_touches op p' p ha' (fun heq => ?_)
          exact hn1 r' hr' (by rw [← heq]; exact hp')
        have ho2unt : ∀ op ∈ o2.1, ¬ OpTouches op p := by
          intro op hop
          obtain ⟨r', hr', p', hp', ha'⟩ := visitAll_ops_at env db.committed
            rs2 o2 hv2 (fun x hx q hq => hcs x (hmem2 x hx) q hq) op hop
          refine opAt_not_touches op p' p ha' (fun heq => ?_)
          exact hn2 r' hr' (by rw [← heq]; exact hp')
        have hops_eq : cn.1 ++ vs.1 = (cn.1 ++ o1.1) ++ (orr.1 ++ o2.1) := by
          rw [hvs1, List.append_assoc]
        have hpreunt : ∀ op ∈ cn.1 ++ o1.1, ¬ OpTouches op p := by
          intro op hop
          rcases List.mem_append.mp hop with h | h
          · exact hcnunt op h
          · exact ho1unt op h
        have hstay : orr.1 = [] →
            r ∈ (commit (stage db (cn.1 ++ vs.1) (cn.2 ++ vs.2))).1.committed := by
          intro hnil
          rw [hcom]
          have hunt : ∀ op ∈ cn.1 ++ vs.1, ¬ OpTouches op p := by
            intro op hop
            rw [hops_eq] at hop
            rcases List.mem_append.mp hop with h | h
            · exact hpreunt op h
            · rw [hnil, List.nil_append] at h
              exact ho2unt op h
          have hfeq := applyOps_untouched db.committed (cn.1 ++ vs.1) p hunt
          have hrmem : r ∈ db.committed.filter (pathIs p) :=
            List.mem_filter.mpr ⟨hr, (pathIs_iff p r).mpr hp⟩
          rw [← hfeq] at hrmem
          exact List.mem_of_mem_filter hrmem
        constructor
        · -- deleted file: record removed
          intro hfsnone
          have horr := Except.ok.inj (hvr.symm.trans
            (visitOps_del env db.committed r p m hp hm hfsnone))
          rw [hcom, hops_eq, horr]
          exact filter_after_del db.committed (cn.1 ++ o1.1) o2.1 p ho2unt
        · intro fd hfssome t hmtv
          constructor
          · intro hlt
            constructor
            · -- strictly newer, parse succeeds: replaced wholesale
              intro z hpf
              cases hpd : putDocOps env db.committed z with
              | error err =>
                have := hvr.symm.trans (visitOps_reparse_err env db.committed
                  r p m fd t z err hp hm hfssome hmtv hlt hpf hpd)
                cases this
              | ok pz =>
                have horr := Except.ok.inj (hvr.symm.trans
                  (visitOps_reparse env db.committed r p m fd t z pz
                    hp hm hfssome hmtv hlt hpf hpd))
                obtain ⟨fd', res, hfs', hres, hops⟩ := putDocOps_shape env
                  db.committed z pz.1 pz.2 (by rw [hpd])
                have hce : env.canon z.file = p := by
                  rw [parseFile_src env p z hpf]
                  exact hcs r hr p hp
                rw [hce] at hfs' hops
                have hfdeq : fd' = fd := by
                  rw [hfssome] at hfs'
                  exact (Option.some.inj hfs').symm
                have hflt : (commit (stage db (cn.1 ++ vs.1)
                    (cn.2 ++ vs.2))).1.committed.filter (pathIs p) =
                    [{ path := some (.str p)
                       lastmod := fd'.mtime.map .date
                       title := z.title
                       file := p
                       content := z.content
                       tags := z.metadata.tags
                       reff := res.1
                       lang := z.codeblocks.filterMap (fun cb => cb.language)
                       code := z.codeblocks.filterMap (fun cb => cb.code) }] := by
                  rw [hcom, hops_eq, horr]
                  dsimp only
                  rw [hops]
                  exact filter_after_block db.committed (cn.1 ++ o1.1) o2.1 p
                    _ rfl hpreunt ho2unt
                constructor
                · refine ⟨_, hflt, rfl, ?_, rfl, rfl, rfl⟩
                  dsimp only
                  rw [hfdeq, hmtv]
                  rfl
                · intro hrmem
                  have hrf : r ∈ (commit (stage db (cn.1 ++ vs.1)
                      (cn.2 ++ vs.2))).1.committed.filter (pathIs p) :=
                    List.mem_filter.mpr ⟨hrmem, (pathIs_iff p r).mpr hp⟩
                  rw [hflt] at hrf
                  simp only [List.mem_singleton] at hrf
                  have hlm := congrArg Record.lastmod hrf
                  rw [hm] at hlm
                  dsimp only at hlm
                  rw [hfdeq, hmtv] at hlm
                  simp at hlm
                  rw [hlm] at hlt
                  exact absurd hlt (lt_irrefl t)
            · -- strictly newer but parse fails: stale record untouched
              intro err hpf
              have horr := Except.ok.inj (hvr.symm.trans
                (visitOps_parsefail env db.committed r p m fd t err
                  hp hm hfssome hmtv hlt hpf))
              exact hstay (by rw [horr])
          · -- not newer: no action
            intro hlt
            have horr := Except.ok.inj (hvr.symm.trans
              (visitOps_skip env db.committed r p m fd t
                hp hm hfssome hmtv hlt))
            exact hstay (by rw [horr])


/-- Claim C1, witness: the statement evaluated on a store tracking one
record whose source file has been deleted. -/
theorem C1_thm_witness :
    ∃ db', Database.update envDel dbDel = .ok (db', dbDel.stamp + 1) ∧
      db'.staged = [] ∧ db'.stamp = dbDel.stamp + 1 ∧
      ∀ r ∈ dbDel.committed, ∀ p m,
        r.path = some (.str p) → r.lastmod = some (.date m) →
        ((envDel.fs p = none → db'.committed.filter (pathIs p) = []) ∧
         (∀ fd, envDel.fs p = some fd → ∀ t, fd.mtime = some t →
           ((m < t →
              (∀ z, parseFile envDel p = .ok z →
                 (∃ doc, db'.committed.filter (pathIs p) = [doc] ∧
                    doc.path = some (.str p) ∧
                    doc.lastmod = some (.date t) ∧
                    doc.title = z.title ∧ doc.content = z.content ∧
                    doc.tags = z.metadata.tags) ∧
                 r ∉ db'.committed) ∧
              (∀ err, parseFile envDel p = .error err → r ∈ db'.committed)) ∧
            (¬ m < t → r ∈ db'.committed)))) :=
  C1_thm envDel dbDel rfl
    (fun p => by
      rw [show dbDel.committed = [rGone] from rfl, List.filter_singleton]
      cases hb : pathIs p rGone <;> simp [hb])
    (fun r hr => by
      simp only [show dbDel.committed = [rGone] from rfl,
        List.mem_singleton] at hr
      subst hr
      exact ⟨⟨"/r/gone.md", rfl⟩, ⟨2, rfl⟩⟩)
    (by intro p hp; cases hp)
    (fun r hr p hp => rfl)
    (by intro p fd h; cases h)

end ZestModel
